import Mathlib

/-!
# dlexplore: ELF dynamic-symbol lookup

A shallow embedding of `src/dlexplore.cc` (struct `DynamicSymbolInfo`: `elfHash`, `parse`,
`dump`, `hasSymbol`) together with the properties of these functions.

Modelling conventions

* Process memory is a mapped region of bytes starting at `base`; a read outside the region is
  a fault.  32-bit words are read little-endian (the program is built for Linux/x86-64, where
  `ElfW(x)` is `Elf64_x`, `Elf64_Word` is `uint32_t` and `d_tag` is a signed 64-bit integer).
* Addresses are natural numbers.  `uint32_t` arithmetic is written with an explicit `% 2 ^ 32`.
* A `const char*` argument is the list of bytes stored at the pointer; the C string it denotes
  is the bytes before the first NUL (the end of the list stands for the terminating NUL).
* The dynamic-entry array `lm.l_ld` is the list of its entries; running off the list without
  meeting `DT_NULL` is a read past the array, hence a fault.
* Loops that the source does not bound (`for (idx = ...; idx != STN_UNDEF; idx = mChain[idx])`)
  take a step budget; `Outcome.timeout` says that the budget ran out while the loop was still
  running.
-/

namespace DlExplore

/-- One byte of memory, an unsigned value in `0..255`. -/
abbrev Byte := Fin 256

/-- How a run of a piece of the program ends. -/
inductive Outcome (α : Type) where
  /-- Normal return with a value. -/
  | ret (a : α) : Outcome α
  /-- An `assert(...)` failed. -/
  | abort : Outcome α
  /-- A read of unmapped memory. -/
  | fault : Outcome α
  /-- The step budget ran out; the loop has not finished. -/
  | timeout : Outcome α
  deriving DecidableEq

/-- Sequencing of two runs: the second runs only if the first returned. -/
def Outcome.bind {α β : Type} : Outcome α → (α → Outcome β) → Outcome β
  | .ret a, f => f a
  | .abort, _ => .abort
  | .fault, _ => .fault
  | .timeout, _ => .timeout

/-- The outcome of a memory read: a failed read is a fault. -/
def Outcome.ofRead {α : Type} : Option α → Outcome α
  | some a => .ret a
  | none => .fault

/-- The mapped memory of the inspected process: `bytes` live at addresses `base, base+1, ...`. -/
structure Memory where
  base : Nat
  bytes : List Byte

/-- Read of one byte (`*p` for a `uint8_t*` / `char*`). -/
def Memory.load8 (m : Memory) (a : Nat) : Option Nat :=
  if a < m.base then none else (m.bytes[a - m.base]?).map (fun b => b.val)

/-- Read of one `uint32_t` (little-endian). -/
def Memory.load32 (m : Memory) (a : Nat) : Option Nat :=
  match m.load8 a, m.load8 (a + 1), m.load8 (a + 2), m.load8 (a + 3) with
  | some b0, some b1, some b2, some b3 => some (b0 + 256 * b1 + 65536 * b2 + 16777216 * b3)
  | _, _, _, _ => none

/-- The bytes before the first NUL of a byte run; `none` when the run ends before a NUL. -/
def cstrFrom : List Byte → Option (List Byte)
  | [] => none
  | b :: rest => if b.val = 0 then some [] else (cstrFrom rest).map (fun s => b :: s)

/-- The value of `std::string(p)` for a `const char* p` into memory: the bytes from `p` up to
the first NUL; `none` when the scan leaves the mapped region. -/
def Memory.loadCStr (m : Memory) (a : Nat) : Option (List Byte) :=
  if a < m.base then none else cstrFrom (m.bytes.drop (a - m.base))

/-- The C string denoted by a caller-supplied buffer: its bytes before the first NUL. -/
def cstr (buf : List Byte) : List Byte := buf.takeWhile (fun b => b.val ≠ 0)

/-! ## Constants of `<elf.h>` -/

def DT_NULL : Int := 0
def DT_HASH : Int := 4
def DT_STRTAB : Int := 5
def DT_SYMTAB : Int := 6
def DT_STRSZ : Int := 10
def DT_SYMENT : Int := 11
def STN_UNDEF : Nat := 0

/-! ## `DynamicSymbolInfo` -/

/-- `DynamicSymbolInfo::ElfHashTable`; `mBucket` and `mChain` are addresses. -/
structure ElfHashTable where
  mNumBucket : Nat
  mNumChain : Nat
  mBucket : Nat
  mChain : Nat
  deriving DecidableEq

/-- The data members of `struct DynamicSymbolInfo`; pointers are addresses. -/
structure DynamicSymbolInfo where
  mHashTable : ElfHashTable
  mSymbolTable : Nat
  mSymbolTableEntrySize : Nat
  mStringTable : Nat
  mStringTableSize : Nat
  mLinkMapName : List Byte
  deriving DecidableEq

/-- The value-initialised object that `dyn_sym_infos.emplace_back()` creates in `main`. -/
def DynamicSymbolInfo.zero : DynamicSymbolInfo :=
  { mHashTable := { mNumBucket := 0, mNumChain := 0, mBucket := 0, mChain := 0 },
    mSymbolTable := 0, mSymbolTableEntrySize := 0, mStringTable := 0, mStringTableSize := 0,
    mLinkMapName := [] }

/-- The 32-bit complement `~g`. -/
def not32 (g : Nat) : Nat := 0xffffffff ^^^ g

/-- The body of the `while (*sym_name)` loop of `elfHash`, from the current `h`. -/
def elfHashLoop : List Byte → Nat → Nat
  | [], h => h
  | b :: rest, h =>
    if b.val = 0 then h
    else
      let h1 := ((h <<< 4) % 2 ^ 32 + b.val) % 2 ^ 32
      let g := h1 &&& 0xf0000000
      let h2 := if g ≠ 0 then h1 ^^^ (g >>> 24) else h1
      elfHashLoop rest (h2 &&& not32 g)

/-- `DynamicSymbolInfo::elfHash`. -/
def elfHash (sym_name : List Byte) : Nat := elfHashLoop sym_name 0

/-- `ElfW(Dyn)`: the tag and the 64-bit union `d_un` (`d_val` / `d_ptr`). -/
structure Dyn where
  d_tag : Int
  d_un : Nat
  deriving DecidableEq

/-- The fields of `struct link_map` that `parse` reads. -/
structure LinkMap where
  l_name : List Byte
  l_ld : List Dyn

/-- The `case DT_HASH` block of `parse`: the hash-table descriptor decoded at `d_ptr`. -/
def decodeHash (mem : Memory) (d_ptr : Nat) : Outcome ElfHashTable :=
  (Outcome.ofRead (mem.load32 d_ptr)).bind fun data0 =>
  (Outcome.ofRead (mem.load32 (d_ptr + 4))).bind fun data1 =>
  .ret { mNumBucket := data0, mNumChain := data1,
         mBucket := d_ptr + 4 * 2, mChain := d_ptr + 4 * data0 }

/-- The `for (dyn = lm.l_ld; dyn->d_tag != DT_NULL; ++dyn) switch (dyn->d_tag)` loop of
`parse`, acting on the object under construction.  (`assert(dyn)` follows a read through
`dyn` and cannot fail.) -/
def parseLoop (mem : Memory) : List Dyn → DynamicSymbolInfo → Outcome DynamicSymbolInfo
  | [], _ => .fault
  | dyn :: rest, self =>
    if dyn.d_tag = DT_NULL then .ret self
    else if dyn.d_tag = DT_HASH then
      (decodeHash mem dyn.d_un).bind fun t => parseLoop mem rest { self with mHashTable := t }
    else if dyn.d_tag = DT_SYMENT then
      parseLoop mem rest { self with mSymbolTableEntrySize := dyn.d_un % 2 ^ 32 }
    else if dyn.d_tag = DT_SYMTAB then
      parseLoop mem rest { self with mSymbolTable := dyn.d_un }
    else if dyn.d_tag = DT_STRSZ then
      parseLoop mem rest { self with mStringTableSize := dyn.d_un % 2 ^ 32 }
    else if dyn.d_tag = DT_STRTAB then
      parseLoop mem rest { self with mStringTable := dyn.d_un }
    else parseLoop mem rest self

/-- The literal `"<no_name>"`. -/
def noName : List Byte := [60, 110, 111, 95, 110, 97, 109, 101, 62]

/-- `DynamicSymbolInfo::parse`, a method of the object `self`. -/
def parse (mem : Memory) (self : DynamicSymbolInfo) (lm : LinkMap) : Outcome DynamicSymbolInfo :=
  parseLoop mem lm.l_ld
    { self with mLinkMapName := if cstr lm.l_name ≠ [] then cstr lm.l_name else noName }

/-- `mBucket[i]`. -/
def bucketAt (self : DynamicSymbolInfo) (mem : Memory) (i : Nat) : Option Nat :=
  mem.load32 (self.mHashTable.mBucket + 4 * i)

/-- `mChain[j]`. -/
def chainAt (self : DynamicSymbolInfo) (mem : Memory) (j : Nat) : Option Nat :=
  mem.load32 (self.mHashTable.mChain + 4 * j)

/-- `elf_symbol->st_name` for the record addressed by
`(const char*)mSymbolTable + (mSymbolTableEntrySize * idx)`; the product is a `uint32_t`. -/
def stNameAt (self : DynamicSymbolInfo) (mem : Memory) (idx : Nat) : Option Nat :=
  mem.load32 (self.mSymbolTable + (self.mSymbolTableEntrySize * idx) % 2 ^ 32)

/-- The body of the chain loop of `hasSymbol` for one cursor: does the record match? -/
def symbolMatches (self : DynamicSymbolInfo) (mem : Memory) (symbol_name : List Byte)
    (idx : Nat) : Outcome Bool :=
  (Outcome.ofRead (stNameAt self mem idx)).bind fun st_name =>
  if st_name < self.mStringTableSize then
    let symstr := self.mStringTable + st_name
    if symstr ≠ 0 then
      (Outcome.ofRead (mem.loadCStr symstr)).bind fun s => .ret (decide (s = cstr symbol_name))
    else .ret false
  else .ret false

/-- The chain loop of `hasSymbol`, from cursor `idx`, with a budget of iterations. -/
def hasSymbolLoop (self : DynamicSymbolInfo) (mem : Memory) (symbol_name : List Byte) :
    Nat → Nat → Outcome Bool
  | 0, _ => .timeout
  | fuel + 1, idx =>
    if idx = STN_UNDEF then .ret false
    else
      (symbolMatches self mem symbol_name idx).bind fun found =>
      if found then .ret true
      else (Outcome.ofRead (chainAt self mem idx)).bind fun next =>
        hasSymbolLoop self mem symbol_name fuel next

/-- `DynamicSymbolInfo::hasSymbol`.  The three assertions come first; `assert(symbol_name)`
holds for every byte list.  `fuel` bounds the iterations of the chain walk. -/
def hasSymbol (self : DynamicSymbolInfo) (mem : Memory) (symbol_name : List Byte)
    (fuel : Nat) : Outcome Bool :=
  if self.mSymbolTable = 0 then .abort
  else if self.mStringTable = 0 then .abort
  else if self.mHashTable.mNumBucket = 0 then .ret false
  else
    let hash := elfHash symbol_name
    (Outcome.ofRead (bucketAt self mem (hash % self.mHashTable.mNumBucket))).bind fun idx =>
    hasSymbolLoop self mem symbol_name fuel idx

/-- The body of the chain loop of `dump` for one cursor: the row printed, if any. -/
def symbolRow (self : DynamicSymbolInfo) (mem : Memory) (j : Nat) : Outcome (List (List Byte)) :=
  (Outcome.ofRead (stNameAt self mem j)).bind fun st_name =>
  if st_name < self.mStringTableSize then
    let symstr := self.mStringTable + st_name
    if symstr ≠ 0 then
      (Outcome.ofRead (mem.loadCStr symstr)).bind fun s => .ret [s]
    else .ret []
  else .ret []

/-- The inner loop of `dump` over one chain: the symbol names printed, in order. -/
def dumpChain (self : DynamicSymbolInfo) (mem : Memory) : Nat → Nat → Outcome (List (List Byte))
  | 0, _ => .timeout
  | fuel + 1, j =>
    if j = STN_UNDEF then .ret []
    else
      (symbolRow self mem j).bind fun row =>
      (Outcome.ofRead (chainAt self mem j)).bind fun next =>
      (dumpChain self mem fuel next).bind fun rows => .ret (row ++ rows)

/-- The outer loop of `dump` over buckets `i, i+1, ..., i+n-1`. -/
def dumpBuckets (self : DynamicSymbolInfo) (mem : Memory) (fuel : Nat) :
    Nat → Nat → Outcome (List (List Byte))
  | 0, _ => .ret []
  | n + 1, i =>
    (Outcome.ofRead (bucketAt self mem i)).bind fun head =>
    if head ≠ STN_UNDEF then
      (dumpChain self mem fuel head).bind fun rows =>
      (dumpBuckets self mem fuel n (i + 1)).bind fun more => .ret (rows ++ more)
    else dumpBuckets self mem fuel n (i + 1)

/-- `DynamicSymbolInfo::dump`: the symbol names it prints, in order (the frame lines and the
header are left out).  `fuel` bounds the iterations of each chain walk. -/
def dump (self : DynamicSymbolInfo) (mem : Memory) (fuel : Nat) : Outcome (List (List Byte)) :=
  if self.mSymbolTable = 0 then .abort
  else if self.mStringTable = 0 then .abort
  else dumpBuckets self mem fuel self.mHashTable.mNumBucket 0

/-- `DynamicSymbolInfo::name`. -/
def name (self : DynamicSymbolInfo) : List Byte := self.mLinkMapName

/-- The entry falls to the `default:` label of the `switch` in `parse` without being the
terminator: its tag is none of the five consumed tags and not `DT_NULL`. -/
def isIgnored (d : Dyn) : Bool :=
  d.d_tag ≠ DT_NULL && d.d_tag ≠ DT_HASH && d.d_tag ≠ DT_SYMENT && d.d_tag ≠ DT_SYMTAB &&
    d.d_tag ≠ DT_STRSZ && d.d_tag ≠ DT_STRTAB

/-- The address of the symbol record for cursor `idx`, as both `hasSymbol` and `dump` form
it: `(const char*)mSymbolTable + (mSymbolTableEntrySize * idx)`, where the product of the two
`uint32_t` values is a `uint32_t`. -/
def symbolAddr (self : DynamicSymbolInfo) (idx : Nat) : Nat :=
  self.mSymbolTable + (self.mSymbolTableEntrySize * idx) % 2 ^ 32

/-- The string `"linux-vdso.so"` that `main` searches for in a module name. -/
def vdsoMarker : List Byte := [108, 105, 110, 117, 120, 45, 118, 100, 115, 111, 46, 115, 111]

/-- Does `needle` occur at the start of `hay`? -/
def matchesHere : List Byte → List Byte → Bool
  | [], _ => true
  | _ :: _, [] => false
  | a :: as, b :: bs => decide (a = b) && matchesHere as bs

/-- `std::string(hay).find(needle)`: the first position at which `needle` occurs, `none` for
`std::string::npos`. -/
def strFind (needle : List Byte) : List Byte → Option Nat
  | [] => if matchesHere needle [] then some 0 else none
  | b :: bs =>
    if matchesHere needle (b :: bs) then some 0 else (strFind needle bs).map fun p => p + 1

/-- The test `std::string(lm->l_name).find("linux-vdso.so") != std::string::npos` of `main`. -/
def isVdso (lm : LinkMap) : Bool := (strFind vdsoMarker (cstr lm.l_name)).isSome

/-- The first loop of `main`, `for (lm = my_lmap; lm != 0; lm = lm->l_next)`, over the module
chain given as the list of its descriptors in chain order; `infos` is `dyn_sym_infos`. -/
def mainLoop (mem : Memory) : List LinkMap → List DynamicSymbolInfo →
    Outcome (List DynamicSymbolInfo)
  | [], infos => .ret infos
  | lm :: rest, infos =>
    if isVdso lm then mainLoop mem rest infos
    else
      (parse mem DynamicSymbolInfo.zero lm).bind fun d => mainLoop mem rest (infos ++ [d])

/-- The part of `main` that fills `dyn_sym_infos`: the assertion that the chain has a head,
then the first loop.  The empty list stands for a null `my_lmap`. -/
def mainParse (mem : Memory) (chain : List LinkMap) : Outcome (List DynamicSymbolInfo) :=
  match chain with
  | [] => .abort
  | lm :: rest => mainLoop mem (lm :: rest) []

/-! ## Specification-side notions -/

/-- One step of the reference hash of the specification: `h' = (h * 16 + b) mod 2^32`,
`g = h' AND 0xF0000000`, `h' XOR (g >> 24)` when `g != 0`, then `AND NOT g`. -/
def elfHashRefStep (h : Nat) (b : Byte) : Nat :=
  let h' := (h * 16 + b.val) % 2 ^ 32
  let g := h' &&& 0xF0000000
  let x := if g ≠ 0 then h' ^^^ (g >>> 24) else h'
  x &&& (0xFFFFFFFF - g)

/-- The reference hash of the specification: the fold of `elfHashRefStep` from `0` over the
bytes before the first zero byte. -/
def elfHashRef (bytes : List Byte) : Nat :=
  (bytes.takeWhile (fun b => b.val ≠ 0)).foldl elfHashRefStep 0

/-- The cursor reached from `head` after following `k` chain links `j ↦ chain[j]`; `none`
when the chain has ended (cursor `0`) before that, or a link cannot be read. -/
def cursorAfter (self : DynamicSymbolInfo) (mem : Memory) : Nat → Nat → Option Nat
  | 0, head => some head
  | k + 1, head =>
    if head = STN_UNDEF then none
    else (chainAt self mem head).bind (cursorAfter self mem k)

/-- Symbol index `j` is a non-zero index on the chain that starts at `head` and follows
`chain[j]` until `0`. -/
def OnChain (self : DynamicSymbolInfo) (mem : Memory) (head j : Nat) : Prop :=
  j ≠ STN_UNDEF ∧ ∃ k, cursorAfter self mem k head = some j

/-- The chain that starts at `head` reaches `0` after finitely many links. -/
def ChainEnds (self : DynamicSymbolInfo) (mem : Memory) (head : Nat) : Prop :=
  ∃ k, cursorAfter self mem k head = some STN_UNDEF

/-- The symbol record `j` has a name offset strictly below the string-table size and the
NUL-terminated string at that offset is `name`. -/
def NamedAt (self : DynamicSymbolInfo) (mem : Memory) (j : Nat) (name : List Byte) : Prop :=
  ∃ off, stNameAt self mem j = some off ∧ off < self.mStringTableSize ∧
    mem.loadCStr (self.mStringTable + off) = some name

/-- Symbol index `j` is reached by the enumeration: it lies on the chain of some bucket. -/
def Reachable (self : DynamicSymbolInfo) (mem : Memory) (j : Nat) : Prop :=
  ∃ i head, i < self.mHashTable.mNumBucket ∧ bucketAt self mem i = some head ∧
    OnChain self mem head j

/-- Every named entry sits on the chain of the bucket that the hash of its name selects. -/
def HashConsistent (self : DynamicSymbolInfo) (mem : Memory) : Prop :=
  ∀ i head j name, i < self.mHashTable.mNumBucket → bucketAt self mem i = some head →
    OnChain self mem head j → NamedAt self mem j name →
    elfHash name % self.mHashTable.mNumBucket = i

/-! ## Hand-built tables -/

/-- The four little-endian bytes of a 32-bit word. -/
def le32 (n : Nat) : List Byte :=
  [Fin.ofNat n, Fin.ofNat (n / 256), Fin.ofNat (n / 65536), Fin.ofNat (n / 16777216)]

/-- The bytes of an array of 32-bit words. -/
def wordBytes : List Nat → List Byte
  | [] => []
  | w :: ws => le32 w ++ wordBytes ws

/-- A 24-byte `Elf64_Sym` record with the given `st_name`, the other fields zero. -/
def symRecord (st_name : Nat) : List Byte := le32 st_name ++ List.replicate 20 0

/-- The name `"target"`. -/
def nameTarget : List Byte := [116, 97, 114, 103, 101, 116]

/-- The name `"missing"`. -/
def nameMissing : List Byte := [109, 105, 115, 115, 105, 110, 103]

/-- The hash table `[1, 2, 1, 0, 0]` (one bucket holding 1, chain slots `[0, 0]`) at address
4096, the symbol records `{0: "<no_name>", 1: "target"}` at 4116, and the string table
`"\0<no_name>\0target\0"` at 4164. -/
def tableMem : Memory :=
  { base := 4096,
    bytes := wordBytes [1, 2, 1, 0, 0] ++ (symRecord 1 ++ symRecord 11) ++
      ([0] ++ noName ++ [0] ++ nameTarget ++ [0]) }

/-- The dynamic section that describes `tableMem`. -/
def tableLm : LinkMap :=
  { l_name := [],
    l_ld := [⟨DT_HASH, 4096⟩, ⟨DT_SYMTAB, 4116⟩, ⟨DT_SYMENT, 24⟩, ⟨DT_STRTAB, 4164⟩,
      ⟨DT_STRSZ, 18⟩, ⟨DT_NULL, 0⟩] }

/-- The object that `parse` builds from `tableLm`. -/
def tableInfo : DynamicSymbolInfo :=
  { mHashTable := { mNumBucket := 1, mNumChain := 2, mBucket := 4104, mChain := 4100 },
    mSymbolTable := 4116, mSymbolTableEntrySize := 24, mStringTable := 4164,
    mStringTableSize := 18, mLinkMapName := noName }

/-- Two buckets `[1, 0]`: symbol 1, named `"a"` (hash 97, bucket 1), sits in bucket 0.  Hash
table `[2, 2, 1, 0, 0, 0]` at 4096, two symbol records at 4120, string table `"\0a\0"` at
4168. -/
def misplacedMem : Memory :=
  { base := 4096,
    bytes := wordBytes [2, 2, 1, 0, 0, 0] ++ (symRecord 0 ++ symRecord 1) ++ [0, 97, 0] }

/-- The dynamic section that describes `misplacedMem`. -/
def misplacedLm : LinkMap :=
  { l_name := [],
    l_ld := [⟨DT_HASH, 4096⟩, ⟨DT_SYMTAB, 4120⟩, ⟨DT_SYMENT, 24⟩, ⟨DT_STRTAB, 4168⟩,
      ⟨DT_STRSZ, 3⟩, ⟨DT_NULL, 0⟩] }

/-- The object that `parse` builds from `misplacedLm`. -/
def misplacedInfo : DynamicSymbolInfo :=
  { mHashTable := { mNumBucket := 2, mNumChain := 2, mBucket := 4104, mChain := 4104 },
    mSymbolTable := 4120, mSymbolTableEntrySize := 24, mStringTable := 4168,
    mStringTableSize := 3, mLinkMapName := noName }

/-- The dynamic section of `tableLm` without its string-table entry. -/
def noStrtabLm : LinkMap :=
  { l_name := [],
    l_ld := [⟨DT_HASH, 4096⟩, ⟨DT_SYMTAB, 4116⟩, ⟨DT_SYMENT, 24⟩, ⟨DT_STRSZ, 18⟩,
      ⟨DT_NULL, 0⟩] }

/-- The object that `parse` builds from `noStrtabLm`. -/
def noStrtabInfo : DynamicSymbolInfo :=
  { mHashTable := { mNumBucket := 1, mNumChain := 2, mBucket := 4104, mChain := 4100 },
    mSymbolTable := 4116, mSymbolTableEntrySize := 24, mStringTable := 0,
    mStringTableSize := 18, mLinkMapName := noName }

/-- The dynamic section of `tableLm` without its hash-table entry. -/
def noHashLm : LinkMap :=
  { l_name := [],
    l_ld := [⟨DT_SYMTAB, 4116⟩, ⟨DT_SYMENT, 24⟩, ⟨DT_STRTAB, 4164⟩, ⟨DT_STRSZ, 18⟩,
      ⟨DT_NULL, 0⟩] }

/-- The object that `parse` builds from `noHashLm`. -/
def noHashInfo : DynamicSymbolInfo :=
  { mHashTable := { mNumBucket := 0, mNumChain := 0, mBucket := 0, mChain := 0 },
    mSymbolTable := 4116, mSymbolTableEntrySize := 24, mStringTable := 4164,
    mStringTableSize := 18, mLinkMapName := noName }

/-- A dynamic section in which the symbol-table, entry-size and string-size tags occur
twice, with an ignored tag (`DT_DEBUG`, 21) in between and entries after the terminator. -/
def repeatedLm : LinkMap :=
  { l_name := [],
    l_ld := [⟨DT_SYMTAB, 8⟩, ⟨DT_SYMENT, 16⟩, ⟨DT_HASH, 4096⟩, ⟨DT_SYMTAB, 4116⟩, ⟨21, 7⟩,
      ⟨DT_SYMENT, 24⟩, ⟨DT_STRTAB, 4164⟩, ⟨DT_STRSZ, 18⟩, ⟨DT_NULL, 0⟩, ⟨DT_SYMTAB, 99⟩] }

/-- Two buckets.  Hash table `[2, 5, 3, 4, 0, 2, 0, 0, 0]` at 4096: with the chain view that
`parse` derives, bucket 0 holds the chain `3 → 2` and bucket 1 the chain `4`.  Five symbol
records at 4132 (records 2, 3, 4 named `"d"`, `"b"`, `"a"`), string table `"\\0b\\0d\\0a\\0"`
at 4252.  The hashes of `"b"` and `"d"` are even, the hash of `"a"` is odd. -/
def wideMem : Memory :=
  { base := 4096,
    bytes := wordBytes [2, 5, 3, 4, 0, 2, 0, 0, 0] ++
      (symRecord 0 ++ symRecord 0 ++ symRecord 3 ++ symRecord 1 ++ symRecord 5) ++
      [0, 98, 0, 100, 0, 97, 0] }

/-- The dynamic section that describes `wideMem`. -/
def wideLm : LinkMap :=
  { l_name := [],
    l_ld := [⟨DT_HASH, 4096⟩, ⟨DT_SYMTAB, 4132⟩, ⟨DT_SYMENT, 24⟩, ⟨DT_STRTAB, 4252⟩,
      ⟨DT_STRSZ, 7⟩, ⟨DT_NULL, 0⟩] }

/-- The object that `parse` builds from `wideLm`. -/
def wideInfo : DynamicSymbolInfo :=
  { mHashTable := { mNumBucket := 2, mNumChain := 5, mBucket := 4104, mChain := 4104 },
    mSymbolTable := 4132, mSymbolTableEntrySize := 24, mStringTable := 4252,
    mStringTableSize := 7, mLinkMapName := noName }

/-- The layout of `wideMem` with other name offsets: record 3, the first on the chain of
bucket 0, has the name offset 9, beyond the string table of size 7; record 2, which follows
it, is named `"b"` and record 4 is named `"a"`. -/
def skipMem : Memory :=
  { base := 4096,
    bytes := wordBytes [2, 5, 3, 4, 0, 2, 0, 0, 0] ++
      (symRecord 0 ++ symRecord 0 ++ symRecord 1 ++ symRecord 9 ++ symRecord 5) ++
      [0, 98, 0, 100, 0, 97, 0] }

/-- A module descriptor with the name `"linux-vdso.so.1"` and an empty dynamic section. -/
def vdsoLm : LinkMap := { l_name := vdsoMarker ++ [46, 49], l_ld := [] }

/-! ## Theorems -/

set_option maxRecDepth 8000

/-! ### Runs -/

@[simp] theorem Outcome.bind_ret {α β : Type} (a : α) (f : α → Outcome β) :
    (Outcome.ret a).bind f = f a := rfl

@[simp] theorem Outcome.bind_abort {α β : Type} (f : α → Outcome β) :
    (Outcome.abort : Outcome α).bind f = .abort := rfl

@[simp] theorem Outcome.bind_fault {α β : Type} (f : α → Outcome β) :
    (Outcome.fault : Outcome α).bind f = .fault := rfl

@[simp] theorem Outcome.bind_timeout {α β : Type} (f : α → Outcome β) :
    (Outcome.timeout : Outcome α).bind f = .timeout := rfl

@[simp] theorem Outcome.ofRead_some {α : Type} (a : α) : Outcome.ofRead (some a) = .ret a := rfl

@[simp] theorem Outcome.ofRead_none {α : Type} : Outcome.ofRead (none : Option α) = .fault := rfl

/-! ### The hash function -/

theorem not32_eq_sub (g : Nat) (hg : g < 2 ^ 32) : not32 g = 0xFFFFFFFF - g := by
  unfold not32
  apply Nat.eq_of_testBit_eq
  intro i
  have h1 : (0xFFFFFFFF : Nat) = 2 ^ 32 - 1 := by norm_num
  have h2 : (0xFFFFFFFF : Nat) - g = 2 ^ 32 - (g + 1) := by omega
  rw [Nat.testBit_xor, h2, Nat.testBit_two_pow_sub_succ hg, h1, Nat.testBit_two_pow_sub_one]
  by_cases hi : i < 32
  · simp [hi]
  · have hlt : g < 2 ^ i := lt_of_lt_of_le hg (Nat.pow_le_pow_right (by norm_num) (by omega))
    simp [hi, Nat.testBit_lt_two_pow hlt]

theorem elfHashLoop_eq_foldl (bytes : List Byte) (h : Nat) :
    elfHashLoop bytes h = (bytes.takeWhile (fun b => b.val ≠ 0)).foldl elfHashRefStep h := by
  induction bytes generalizing h with
  | nil => simp [elfHashLoop]
  | cons b rest ih =>
    by_cases hb : b.val = 0
    · simp [elfHashLoop, hb]
    · have hstep : ((h <<< 4) % 2 ^ 32 + b.val) % 2 ^ 32 = (h * 16 + b.val) % 2 ^ 32 := by
        rw [Nat.shiftLeft_eq]; omega
      have hg : ((h * 16 + b.val) % 2 ^ 32) &&& 0xF0000000 < 2 ^ 32 :=
        lt_of_le_of_lt Nat.and_le_right (by norm_num)
      simp only [elfHashLoop, hb, if_false, hstep, List.takeWhile_cons, ne_eq, not_false_eq_true,
        decide_True, if_true, List.foldl_cons, ih, elfHashRefStep, not32_eq_sub _ hg]

/-- C3: for every byte sequence, `elfHash` equals the reference fold over the bytes before the
first zero byte: from `h = 0`, each byte `b` maps `h` to `h' = (h * 16 + b) mod 2^32`,
`g = h' AND 0xF0000000`, then `h' XOR (g >> 24)` when `g != 0`, then `AND NOT g`. -/
theorem elfHash_eq_ref (bytes : List Byte) : elfHash bytes = elfHashRef bytes :=
  elfHashLoop_eq_foldl bytes 0

/-! ### The chain walk of `hasSymbol` -/

theorem symbolMatches_cases (self : DynamicSymbolInfo) (mem : Memory) (name : List Byte)
    (idx : Nat) :
    symbolMatches self mem name idx = .ret true ∨ symbolMatches self mem name idx = .ret false ∨
      symbolMatches self mem name idx = .fault := by
  unfold symbolMatches
  cases stNameAt self mem idx with
  | none => simp
  | some off =>
    simp only [Outcome.ofRead_some, Outcome.bind_ret]
    split
    · split
      · cases mem.loadCStr (self.mStringTable + off) with
        | none => simp
        | some s => by_cases hs : s = cstr name <;> simp [hs]
      · simp
    · simp

theorem symbolMatches_true_iff (self : DynamicSymbolInfo) (mem : Memory) (name : List Byte)
    (idx : Nat) (hstr : self.mStringTable ≠ 0) :
    symbolMatches self mem name idx = .ret true ↔ NamedAt self mem idx (cstr name) := by
  unfold symbolMatches NamedAt
  cases hoff : stNameAt self mem idx with
  | none => simp
  | some off =>
    have hne : self.mStringTable + off ≠ 0 := by omega
    simp only [Outcome.ofRead_some, Outcome.bind_ret, hne, ne_eq, not_false_eq_true, if_true,
      Option.some.injEq, exists_eq_left']
    by_cases hlt : off < self.mStringTableSize
    · cases hs : mem.loadCStr (self.mStringTable + off) with
      | none => simp [hlt]
      | some s => simp [hlt]
    · simp [hlt]

theorem hasSymbolLoop_true_onChain (self : DynamicSymbolInfo) (mem : Memory) (name : List Byte)
    (hstr : self.mStringTable ≠ 0) :
    ∀ fuel idx, hasSymbolLoop self mem name fuel idx = .ret true →
      ∃ j, OnChain self mem idx j ∧ NamedAt self mem j (cstr name) := by
  intro fuel
  induction fuel with
  | zero => intro idx h; simp [hasSymbolLoop] at h
  | succ fuel ih =>
    intro idx h
    unfold hasSymbolLoop at h
    by_cases h0 : idx = STN_UNDEF
    · simp [h0] at h
    · simp only [h0, if_false] at h
      rcases symbolMatches_cases self mem name idx with hm | hm | hm
      · exact ⟨idx, ⟨h0, 0, rfl⟩, (symbolMatches_true_iff self mem name idx hstr).1 hm⟩
      · rw [hm] at h
        simp only [Outcome.bind_ret, Bool.false_eq_true, if_false] at h
        cases hc : chainAt self mem idx with
        | none => rw [hc] at h; simp at h
        | some next =>
          rw [hc] at h
          simp only [Outcome.ofRead_some, Outcome.bind_ret] at h
          obtain ⟨j, ⟨hj0, k, hk⟩, hn⟩ := ih next h
          exact ⟨j, ⟨hj0, k + 1, by simp [cursorAfter, h0, hc, hk]⟩, hn⟩
      · rw [hm] at h; simp at h

theorem hasSymbolLoop_finds (self : DynamicSymbolInfo) (mem : Memory) (name : List Byte)
    (hstr : self.mStringTable ≠ 0) (j : Nat) (hj : j ≠ STN_UNDEF)
    (hn : NamedAt self mem j (cstr name)) :
    ∀ k idx, cursorAfter self mem k idx = some j →
      (∀ fuel, hasSymbolLoop self mem name fuel idx ≠ .fault) →
      ∃ fuel, hasSymbolLoop self mem name fuel idx = .ret true := by
  intro k
  induction k with
  | zero =>
    intro idx hk _
    simp only [cursorAfter, Option.some.injEq] at hk
    subst hk
    refine ⟨1, ?_⟩
    simp [hasSymbolLoop, hj, (symbolMatches_true_iff self mem name idx hstr).2 hn]
  | succ k ih =>
    intro idx hk hsafe
    by_cases h0 : idx = STN_UNDEF
    · simp [cursorAfter, h0] at hk
    · simp only [cursorAfter, h0, if_false] at hk
      cases hc : chainAt self mem idx with
      | none => rw [hc] at hk; simp at hk
      | some next =>
        rw [hc] at hk
        simp only [Option.some_bind] at hk
        have hunf : ∀ fuel, hasSymbolLoop self mem name (fuel + 1) idx =
            (symbolMatches self mem name idx).bind fun found =>
              if found then .ret true else hasSymbolLoop self mem name fuel next := by
          intro fuel
          simp [hasSymbolLoop, h0, hc]
        rcases symbolMatches_cases self mem name idx with hm | hm | hm
        · exact ⟨1, by rw [hunf, hm]; simp⟩
        · have hsafe' : ∀ fuel, hasSymbolLoop self mem name fuel next ≠ .fault := by
            intro fuel hf
            apply hsafe (fuel + 1)
            rw [hunf, hm]; simpa using hf
          obtain ⟨fuel, hfuel⟩ := ih next hk hsafe'
          exact ⟨fuel + 1, by rw [hunf, hm]; simpa using hfuel⟩
        · exact absurd (by rw [hunf, hm]; simp) (hsafe 1)

/-- C1: for an index with `numBuckets > 0` whose symbol and string tables are present (the
assertions of `hasSymbol`) and a lookup that does not leave mapped memory, `hasSymbol` returns
true if and only if some symbol index `j != 0` on the chain that starts at
`bucket[elfHash(name) mod numBuckets]` and follows `chain[j]` until `0` has a name offset
strictly below the string-table size with the NUL-terminated string at that offset equal,
byte for byte, to `name`.  The record at index 0 is never the match. -/
theorem hasSymbol_true_iff (self : DynamicSymbolInfo) (mem : Memory) (symbol_name : List Byte)
    (hnb : 0 < self.mHashTable.mNumBucket)
    (hsym : self.mSymbolTable ≠ 0) (hstr : self.mStringTable ≠ 0)
    (hmem : ∀ fuel, hasSymbol self mem symbol_name fuel ≠ .fault) :
    (∃ fuel, hasSymbol self mem symbol_name fuel = .ret true) ↔
      ∃ head j, bucketAt self mem (elfHash symbol_name % self.mHashTable.mNumBucket) = some head ∧
        OnChain self mem head j ∧ NamedAt self mem j (cstr symbol_name) := by
  have hnb' : self.mHashTable.mNumBucket ≠ 0 := by omega
  have hunf : ∀ fuel, hasSymbol self mem symbol_name fuel =
      (Outcome.ofRead (bucketAt self mem (elfHash symbol_name % self.mHashTable.mNumBucket))).bind
        fun idx => hasSymbolLoop self mem symbol_name fuel idx := by
    intro fuel; simp [hasSymbol, hsym, hstr, hnb']
  cases hb : bucketAt self mem (elfHash symbol_name % self.mHashTable.mNumBucket) with
  | none => exact absurd (by rw [hunf, hb]; simp) (hmem 0)
  | some head =>
    simp only [hunf, hb, Outcome.ofRead_some, Outcome.bind_ret] at hmem ⊢
    constructor
    · rintro ⟨fuel, h⟩
      obtain ⟨j, hj, hn⟩ := hasSymbolLoop_true_onChain self mem symbol_name hstr fuel head h
      exact ⟨head, j, rfl, hj, hn⟩
    · rintro ⟨head', j, hh, ⟨hj0, k, hk⟩, hn⟩
      cases hh
      exact hasSymbolLoop_finds self mem symbol_name hstr j hj0 hn k head hk hmem

theorem tableInfo_target (fuel : Nat) :
    hasSymbol tableInfo tableMem nameTarget (fuel + 1) = .ret true := rfl

theorem tableInfo_target_safe (fuel : Nat) :
    hasSymbol tableInfo tableMem nameTarget fuel ≠ .fault := by
  cases fuel with
  | zero => decide
  | succ n => rw [tableInfo_target]; exact Outcome.noConfusion

/-- Witness of C1 on the hand-built table: the lookup of `"target"` meets all hypotheses, and
it returns true. -/
theorem hasSymbol_true_iff_witness :
    (0 < tableInfo.mHashTable.mNumBucket ∧ tableInfo.mSymbolTable ≠ 0 ∧
      tableInfo.mStringTable ≠ 0 ∧
      ∀ fuel, hasSymbol tableInfo tableMem nameTarget fuel ≠ .fault) ∧
    ((∃ fuel, hasSymbol tableInfo tableMem nameTarget fuel = .ret true) ↔
      ∃ head j,
        bucketAt tableInfo tableMem (elfHash nameTarget % tableInfo.mHashTable.mNumBucket)
          = some head ∧
        OnChain tableInfo tableMem head j ∧ NamedAt tableInfo tableMem j (cstr nameTarget)) :=
  ⟨⟨by decide, by decide, by decide, tableInfo_target_safe⟩,
    hasSymbol_true_iff tableInfo tableMem nameTarget (by decide) (by decide) (by decide)
      tableInfo_target_safe⟩

/-! ### The hash-table descriptor decoded by `parse` -/

/-- C2 (the code at the failing input): for the table `[1, 2, 1, 0, 0]` the parsed counts are
`1` and `2` and `bucket[0]` is `b_0 = 1`, but the parsed chain view starts at table word
`numBuckets` instead of `2 + numBuckets`: `chain[0]` reads `2` (the word `numChains`) and
`chain[1]` reads `1` (the word `b_0`), while `c_0 = c_1 = 0`. -/
theorem parse_chain_view_misplaced :
    parse tableMem .zero tableLm = .ret tableInfo ∧
    tableInfo.mHashTable.mNumBucket = 1 ∧ tableInfo.mHashTable.mNumChain = 2 ∧
    bucketAt tableInfo tableMem 0 = some 1 ∧
    tableMem.load32 (4096 + 4 * (2 + 1 + 0)) = some 0 ∧
    tableMem.load32 (4096 + 4 * (2 + 1 + 1)) = some 0 ∧
    chainAt tableInfo tableMem 0 = some 2 ∧
    chainAt tableInfo tableMem 1 = some 1 := by
  decide

/-! ### The hand-built table with one bucket -/

theorem tableInfo_missing_step (fuel : Nat) :
    hasSymbolLoop tableInfo tableMem nameMissing (fuel + 1) 1 =
      hasSymbolLoop tableInfo tableMem nameMissing fuel 1 := rfl

theorem tableInfo_missing_loop (fuel : Nat) :
    hasSymbolLoop tableInfo tableMem nameMissing fuel 1 = .timeout := by
  induction fuel with
  | zero => rfl
  | succ n ih => rw [tableInfo_missing_step, ih]

/-- C6 (the code at the failing input): on the index parsed from the table with one bucket
holding 1, chain slots `[0, 0]` and records `{0: "<no_name>", 1: "target"}`, `hasSymbol`
returns true for `"target"`, but for `"missing"` it never returns: the parsed `chain[1]` is
the bucket word `1`, so the cursor stays at 1 and every budget runs out. -/
theorem hasSymbol_missing_never_returns :
    parse tableMem .zero tableLm = .ret tableInfo ∧
    (∀ fuel, hasSymbol tableInfo tableMem nameTarget (fuel + 1) = .ret true) ∧
    (∀ fuel, hasSymbol tableInfo tableMem nameMissing fuel = .timeout) := by
  refine ⟨by decide, fun fuel => rfl, fun fuel => ?_⟩
  have h : hasSymbol tableInfo tableMem nameMissing fuel =
      hasSymbolLoop tableInfo tableMem nameMissing fuel 1 := rfl
  rw [h, tableInfo_missing_loop]

/-! ### `parse` -/

theorem decodeHash_cases (mem : Memory) (p : Nat) :
    (∃ t, decodeHash mem p = .ret t) ∨ decodeHash mem p = .fault := by
  unfold decodeHash
  cases mem.load32 p with
  | none => simp
  | some a =>
    cases mem.load32 (p + 4) with
    | none => simp
    | some b => simp

/-- The loop of `parse` over a run of entries without terminator: it reaches the rest of the
array, and a field whose tag does not occur in the run is unchanged. -/
theorem parseLoop_append (mem : Memory) (l : List Dyn) :
    ∀ (pre : List Dyn) (s : DynamicSymbolInfo),
      (∀ d ∈ pre, d.d_tag ≠ DT_NULL) →
      (∀ d ∈ pre, d.d_tag = DT_HASH → decodeHash mem d.d_un ≠ .fault) →
      ∃ s', parseLoop mem (pre ++ l) s = parseLoop mem l s' ∧
        ((∀ d ∈ pre, d.d_tag ≠ DT_HASH) → s'.mHashTable = s.mHashTable) ∧
        ((∀ d ∈ pre, d.d_tag ≠ DT_SYMENT) →
          s'.mSymbolTableEntrySize = s.mSymbolTableEntrySize) ∧
        ((∀ d ∈ pre, d.d_tag ≠ DT_SYMTAB) → s'.mSymbolTable = s.mSymbolTable) ∧
        ((∀ d ∈ pre, d.d_tag ≠ DT_STRSZ) → s'.mStringTableSize = s.mStringTableSize) ∧
        ((∀ d ∈ pre, d.d_tag ≠ DT_STRTAB) → s'.mStringTable = s.mStringTable) ∧
        s'.mLinkMapName = s.mLinkMapName := by
  intro pre
  induction pre with
  | nil => intro s _ _; exact ⟨s, rfl, fun _ => rfl, fun _ => rfl, fun _ => rfl, fun _ => rfl,
      fun _ => rfl, rfl⟩
  | cons d pre ih =>
    intro s hnull hread
    have hd : d.d_tag ≠ DT_NULL := hnull d (List.mem_cons_self _ _)
    have hnull' : ∀ x ∈ pre, x.d_tag ≠ DT_NULL :=
      fun x hx => hnull x (List.mem_cons_of_mem _ hx)
    have hread' : ∀ x ∈ pre, x.d_tag = DT_HASH → decodeHash mem x.d_un ≠ .fault :=
      fun x hx => hread x (List.mem_cons_of_mem _ hx)
    have key : ∃ s1, parseLoop mem (d :: pre ++ l) s = parseLoop mem (pre ++ l) s1 ∧
        (d.d_tag ≠ DT_HASH → s1.mHashTable = s.mHashTable) ∧
        (d.d_tag ≠ DT_SYMENT → s1.mSymbolTableEntrySize = s.mSymbolTableEntrySize) ∧
        (d.d_tag ≠ DT_SYMTAB → s1.mSymbolTable = s.mSymbolTable) ∧
        (d.d_tag ≠ DT_STRSZ → s1.mStringTableSize = s.mStringTableSize) ∧
        (d.d_tag ≠ DT_STRTAB → s1.mStringTable = s.mStringTable) ∧
        s1.mLinkMapName = s.mLinkMapName := by
      by_cases h1 : d.d_tag = DT_HASH
      · rcases decodeHash_cases mem d.d_un with ⟨t, ht⟩ | hf
        · exact ⟨{ s with mHashTable := t },
            by rw [List.cons_append, parseLoop, if_neg hd, if_pos h1, ht]; rfl,
            fun h => absurd h1 h, fun _ => rfl, fun _ => rfl, fun _ => rfl, fun _ => rfl, rfl⟩
        · exact absurd hf (hread d (List.mem_cons_self _ _) h1)
      · by_cases h2 : d.d_tag = DT_SYMENT
        · exact ⟨{ s with mSymbolTableEntrySize := d.d_un % 2 ^ 32 },
            by rw [List.cons_append, parseLoop, if_neg hd, if_neg h1, if_pos h2],
            fun _ => rfl, fun h => absurd h2 h, fun _ => rfl, fun _ => rfl, fun _ => rfl, rfl⟩
        · by_cases h3 : d.d_tag = DT_SYMTAB
          · exact ⟨{ s with mSymbolTable := d.d_un },
              by rw [List.cons_append, parseLoop, if_neg hd, if_neg h1, if_neg h2, if_pos h3],
              fun _ => rfl, fun _ => rfl, fun h => absurd h3 h, fun _ => rfl, fun _ => rfl, rfl⟩
          · by_cases h4 : d.d_tag = DT_STRSZ
            · exact ⟨{ s with mStringTableSize := d.d_un % 2 ^ 32 },
                by rw [List.cons_append, parseLoop, if_neg hd, if_neg h1, if_neg h2, if_neg h3,
                  if_pos h4],
                fun _ => rfl, fun _ => rfl, fun _ => rfl, fun h => absurd h4 h, fun _ => rfl, rfl⟩
            · by_cases h5 : d.d_tag = DT_STRTAB
              · exact ⟨{ s with mStringTable := d.d_un },
                  by rw [List.cons_append, parseLoop, if_neg hd, if_neg h1, if_neg h2, if_neg h3,
                    if_neg h4, if_pos h5],
                  fun _ => rfl, fun _ => rfl, fun _ => rfl, fun _ => rfl, fun h => absurd h5 h,
                  rfl⟩
              · exact ⟨s,
                  by rw [List.cons_append, parseLoop, if_neg hd, if_neg h1, if_neg h2, if_neg h3,
                    if_neg h4, if_neg h5],
                  fun _ => rfl, fun _ => rfl, fun _ => rfl, fun _ => rfl, fun _ => rfl, rfl⟩
    obtain ⟨s1, e1, a1, a2, a3, a4, a5, a6⟩ := key
    obtain ⟨s2, e2, b1, b2, b3, b4, b5, b6⟩ := ih s1 hnull' hread'
    refine ⟨s2, by rw [e1, e2], ?_, ?_, ?_, ?_, ?_, by rw [b6, a6]⟩
    · intro h
      rw [b1 (fun x hx => h x (List.mem_cons_of_mem _ hx)), a1 (h d (List.mem_cons_self _ _))]
    · intro h
      rw [b2 (fun x hx => h x (List.mem_cons_of_mem _ hx)), a2 (h d (List.mem_cons_self _ _))]
    · intro h
      rw [b3 (fun x hx => h x (List.mem_cons_of_mem _ hx)), a3 (h d (List.mem_cons_self _ _))]
    · intro h
      rw [b4 (fun x hx => h x (List.mem_cons_of_mem _ hx)), a4 (h d (List.mem_cons_self _ _))]
    · intro h
      rw [b5 (fun x hx => h x (List.mem_cons_of_mem _ hx)), a5 (h d (List.mem_cons_self _ _))]

/-- One entry that is not the terminator: the loop of `parse` records its payload in the
field of its tag and goes on with the rest of the array. -/
theorem parseLoop_cons (mem : Memory) (e : Dyn) (l : List Dyn) (s : DynamicSymbolInfo)
    (he : e.d_tag ≠ DT_NULL) (hread : e.d_tag = DT_HASH → decodeHash mem e.d_un ≠ .fault) :
    ∃ s', parseLoop mem (e :: l) s = parseLoop mem l s' ∧
      (e.d_tag = DT_HASH → decodeHash mem e.d_un = .ret s'.mHashTable) ∧
      (e.d_tag = DT_SYMENT → s'.mSymbolTableEntrySize = e.d_un % 2 ^ 32) ∧
      (e.d_tag = DT_SYMTAB → s'.mSymbolTable = e.d_un) ∧
      (e.d_tag = DT_STRSZ → s'.mStringTableSize = e.d_un % 2 ^ 32) ∧
      (e.d_tag = DT_STRTAB → s'.mStringTable = e.d_un) := by
  have c12 : DT_HASH ≠ DT_SYMENT := by decide
  have c13 : DT_HASH ≠ DT_SYMTAB := by decide
  have c14 : DT_HASH ≠ DT_STRSZ := by decide
  have c15 : DT_HASH ≠ DT_STRTAB := by decide
  have c23 : DT_SYMENT ≠ DT_SYMTAB := by decide
  have c24 : DT_SYMENT ≠ DT_STRSZ := by decide
  have c25 : DT_SYMENT ≠ DT_STRTAB := by decide
  have c34 : DT_SYMTAB ≠ DT_STRSZ := by decide
  have c35 : DT_SYMTAB ≠ DT_STRTAB := by decide
  have c45 : DT_STRSZ ≠ DT_STRTAB := by decide
  by_cases h1 : e.d_tag = DT_HASH
  · rcases decodeHash_cases mem e.d_un with ⟨t, ht⟩ | hf
    · exact ⟨{ s with mHashTable := t }, by rw [parseLoop, if_neg he, if_pos h1, ht]; rfl,
        fun _ => ht, fun h => absurd (h1.symm.trans h) c12, fun h => absurd (h1.symm.trans h) c13,
        fun h => absurd (h1.symm.trans h) c14, fun h => absurd (h1.symm.trans h) c15⟩
    · exact absurd hf (hread h1)
  · by_cases h2 : e.d_tag = DT_SYMENT
    · exact ⟨{ s with mSymbolTableEntrySize := e.d_un % 2 ^ 32 },
        by rw [parseLoop, if_neg he, if_neg h1, if_pos h2],
        fun h => absurd h h1, fun _ => rfl, fun h => absurd (h2.symm.trans h) c23,
        fun h => absurd (h2.symm.trans h) c24, fun h => absurd (h2.symm.trans h) c25⟩
    · by_cases h3 : e.d_tag = DT_SYMTAB
      · exact ⟨{ s with mSymbolTable := e.d_un },
          by rw [parseLoop, if_neg he, if_neg h1, if_neg h2, if_pos h3],
          fun h => absurd h h1, fun h => absurd h h2, fun _ => rfl,
          fun h => absurd (h3.symm.trans h) c34, fun h => absurd (h3.symm.trans h) c35⟩
      · by_cases h4 : e.d_tag = DT_STRSZ
        · exact ⟨{ s with mStringTableSize := e.d_un % 2 ^ 32 },
            by rw [parseLoop, if_neg he, if_neg h1, if_neg h2, if_neg h3, if_pos h4],
            fun h => absurd h h1, fun h => absurd h h2, fun h => absurd h h3, fun _ => rfl,
            fun h => absurd (h4.symm.trans h) c45⟩
        · by_cases h5 : e.d_tag = DT_STRTAB
          · exact ⟨{ s with mStringTable := e.d_un },
              by rw [parseLoop, if_neg he, if_neg h1, if_neg h2, if_neg h3, if_neg h4, if_pos h5],
              fun h => absurd h h1, fun h => absurd h h2, fun h => absurd h h3,
              fun h => absurd h h4, fun _ => rfl⟩
          · exact ⟨s,
              by rw [parseLoop, if_neg he, if_neg h1, if_neg h2, if_neg h3, if_neg h4, if_neg h5],
              fun h => absurd h h1, fun h => absurd h h2, fun h => absurd h h3,
              fun h => absurd h h4, fun h => absurd h h5⟩

/-- C9: later entries win.  For a dynamic-entry array `pre ++ e :: post ++ terminator :: rest`
in which `e` is the last entry with its tag before the terminator (and the hash-table entries
are readable), `parse` returns an index whose field for the tag of `e` is the one decoded
from `e`, whatever the entries of `pre` with the same tag held. -/
theorem parse_later_entries_win (mem : Memory) (self : DynamicSymbolInfo) (lm : LinkMap)
    (pre post rest : List Dyn) (e nul : Dyn)
    (hld : lm.l_ld = pre ++ e :: (post ++ nul :: rest))
    (hnul : nul.d_tag = DT_NULL)
    (hpre : ∀ d ∈ pre, d.d_tag ≠ DT_NULL) (he : e.d_tag ≠ DT_NULL)
    (hpost : ∀ d ∈ post, d.d_tag ≠ DT_NULL ∧ d.d_tag ≠ e.d_tag)
    (hread : ∀ d ∈ pre ++ e :: post, d.d_tag = DT_HASH → decodeHash mem d.d_un ≠ .fault) :
    ∃ d, parse mem self lm = .ret d ∧
      (e.d_tag = DT_HASH → decodeHash mem e.d_un = .ret d.mHashTable) ∧
      (e.d_tag = DT_SYMENT → d.mSymbolTableEntrySize = e.d_un % 2 ^ 32) ∧
      (e.d_tag = DT_SYMTAB → d.mSymbolTable = e.d_un) ∧
      (e.d_tag = DT_STRSZ → d.mStringTableSize = e.d_un % 2 ^ 32) ∧
      (e.d_tag = DT_STRTAB → d.mStringTable = e.d_un) := by
  obtain ⟨s1, e1, -⟩ := parseLoop_append mem (e :: (post ++ nul :: rest)) pre
    { self with mLinkMapName := if cstr lm.l_name ≠ [] then cstr lm.l_name else noName } hpre
    (fun d hd => hread d (List.mem_append_left _ hd))
  obtain ⟨s2, e2, a1, a2, a3, a4, a5⟩ := parseLoop_cons mem e (post ++ nul :: rest) s1 he
    (hread e (List.mem_append_right _ (List.mem_cons_self _ _)))
  obtain ⟨s3, e3, b1, b2, b3, b4, b5, -⟩ := parseLoop_append mem (nul :: rest) post s2
    (fun d hd => (hpost d hd).1)
    (fun d hd => hread d (List.mem_append_right _ (List.mem_cons_of_mem _ hd)))
  have e4 : parseLoop mem (nul :: rest) s3 = .ret s3 := by rw [parseLoop, if_pos hnul]
  refine ⟨s3, by rw [parse, hld, e1, e2, e3, e4], ?_, ?_, ?_, ?_, ?_⟩
  · intro h; rw [b1 (fun d hd => h ▸ (hpost d hd).2)]; exact a1 h
  · intro h; rw [b2 (fun d hd => h ▸ (hpost d hd).2)]; exact a2 h
  · intro h; rw [b3 (fun d hd => h ▸ (hpost d hd).2)]; exact a3 h
  · intro h; rw [b4 (fun d hd => h ▸ (hpost d hd).2)]; exact a4 h
  · intro h; rw [b5 (fun d hd => h ▸ (hpost d hd).2)]; exact a5 h

/-- Witness of C9: in `repeatedLm` the second symbol-table entry (address 4116) follows an
earlier one (address 8); the parsed symbol table is 4116. -/
theorem parse_later_entries_win_witness :
    ∃ d, parse tableMem .zero repeatedLm = .ret d ∧ d.mSymbolTable = 4116 := by
  obtain ⟨d, h, -, -, h3, -⟩ := parse_later_entries_win tableMem .zero repeatedLm
    [⟨DT_SYMTAB, 8⟩, ⟨DT_SYMENT, 16⟩, ⟨DT_HASH, 4096⟩]
    [⟨21, 7⟩, ⟨DT_SYMENT, 24⟩, ⟨DT_STRTAB, 4164⟩, ⟨DT_STRSZ, 18⟩] [⟨DT_SYMTAB, 99⟩]
    ⟨DT_SYMTAB, 4116⟩ ⟨DT_NULL, 0⟩ rfl rfl (by decide) (by decide) (by decide) (by decide)
  exact ⟨d, h, h3 rfl⟩

/-- C8 (counterexample): for the claim's own array, with hash-table and symbol-table entries
but no string-table entry, `parse` returns an index and reports no failure; and for an array
without hash-table entry the returned index answers queries: `hasSymbol` returns false. -/
theorem parse_missing_reports_nothing :
    parse tableMem .zero noStrtabLm = .ret noStrtabInfo ∧
    parse tableMem .zero noHashLm = .ret noHashInfo ∧
    hasSymbol noHashInfo tableMem nameTarget 0 = .ret false := by
  decide

/-- C8 (amended): for every terminated dynamic-entry array whose hash-table entries are
readable, `parse` on the value-initialised object returns an index and reports no failure.
When the hash-table tag never occurs before the terminator, `numBuckets` is still 0 and, the
two other tables being present, `hasSymbol` returns false for every name; when the
symbol-table tag or the string-table tag never occurs, that address is still null and every
`hasSymbol` call fails its assertion. -/
theorem parse_missing_tables (mem : Memory) (lm : LinkMap) (pre rest : List Dyn) (nul : Dyn)
    (hld : lm.l_ld = pre ++ nul :: rest) (hnul : nul.d_tag = DT_NULL)
    (hpre : ∀ d ∈ pre, d.d_tag ≠ DT_NULL)
    (hread : ∀ d ∈ pre, d.d_tag = DT_HASH → decodeHash mem d.d_un ≠ .fault) :
    ∃ d, parse mem .zero lm = .ret d ∧
      ((∀ e ∈ pre, e.d_tag ≠ DT_HASH) → d.mHashTable.mNumBucket = 0 ∧
        (d.mSymbolTable ≠ 0 → d.mStringTable ≠ 0 →
          ∀ name fuel, hasSymbol d mem name fuel = .ret false)) ∧
      ((∀ e ∈ pre, e.d_tag ≠ DT_SYMTAB) → d.mSymbolTable = 0 ∧
        ∀ name fuel, hasSymbol d mem name fuel = .abort) ∧
      ((∀ e ∈ pre, e.d_tag ≠ DT_STRTAB) → d.mStringTable = 0 ∧
        ∀ name fuel, hasSymbol d mem name fuel = .abort) := by
  obtain ⟨s1, e1, a1, -, a3, -, a5, -⟩ := parseLoop_append mem (nul :: rest) pre
    { DynamicSymbolInfo.zero with
      mLinkMapName := if cstr lm.l_name ≠ [] then cstr lm.l_name else noName } hpre hread
  have e2 : parseLoop mem (nul :: rest) s1 = .ret s1 := by rw [parseLoop, if_pos hnul]
  refine ⟨s1, by rw [parse, hld, e1, e2], ?_, ?_, ?_⟩
  · intro h
    have hb : s1.mHashTable.mNumBucket = 0 := by rw [a1 h]; rfl
    refine ⟨hb, fun hsym hstr name fuel => ?_⟩
    simp [hasSymbol, hsym, hstr, hb]
  · intro h
    have hs : s1.mSymbolTable = 0 := by rw [a3 h]; rfl
    exact ⟨hs, fun name fuel => by simp [hasSymbol, hs]⟩
  · intro h
    have hs : s1.mStringTable = 0 := by rw [a5 h]; rfl
    refine ⟨hs, fun name fuel => ?_⟩
    by_cases hsym : s1.mSymbolTable = 0 <;> simp [hasSymbol, hsym, hs]

/-- Witness of C8 (amended): the array of `noHashLm`, which has no hash-table entry. -/
theorem parse_missing_tables_witness :
    ∃ d, parse tableMem .zero noHashLm = .ret d ∧ d.mHashTable.mNumBucket = 0 ∧
      ∀ name fuel, hasSymbol d tableMem name fuel = .ret false := by
  obtain ⟨d, h, h1, -, -⟩ := parse_missing_tables tableMem noHashLm
    [⟨DT_SYMTAB, 4116⟩, ⟨DT_SYMENT, 24⟩, ⟨DT_STRTAB, 4164⟩, ⟨DT_STRSZ, 18⟩] [] ⟨DT_NULL, 0⟩
    rfl rfl (by decide) (by decide)
  have hd : d = noHashInfo := by
    have h' : parse tableMem .zero noHashLm = .ret noHashInfo := by decide
    rw [h] at h'
    exact Outcome.ret.inj h'
  obtain ⟨hb, hq⟩ := h1 (by decide)
  exact ⟨d, h, hb, hq (by rw [hd]; decide) (by rw [hd]; decide)⟩

/-! ### The empty index -/

/-- C10: for every index with `numBuckets = 0` (symbol and string table present, as
`hasSymbol` asserts), every name, every memory and every budget, `hasSymbol` returns false.
The memory is arbitrary, also one with nothing mapped, where any read would fault: no bucket
is read and the hash is not reduced modulo zero. -/
theorem hasSymbol_no_buckets (self : DynamicSymbolInfo) (mem : Memory) (symbol_name : List Byte)
    (fuel : Nat) (hnb : self.mHashTable.mNumBucket = 0)
    (hsym : self.mSymbolTable ≠ 0) (hstr : self.mStringTable ≠ 0) :
    hasSymbol self mem symbol_name fuel = .ret false := by
  simp [hasSymbol, hsym, hstr, hnb]

/-- Witness of C10: the index without hash table, on a memory with nothing mapped. -/
theorem hasSymbol_no_buckets_witness :
    (noHashInfo.mHashTable.mNumBucket = 0 ∧ noHashInfo.mSymbolTable ≠ 0 ∧
      noHashInfo.mStringTable ≠ 0) ∧
    hasSymbol noHashInfo { base := 0, bytes := [] } nameTarget 0 = .ret false :=
  ⟨by decide, hasSymbol_no_buckets noHashInfo { base := 0, bytes := [] } nameTarget 0 rfl
    (by decide) (by decide)⟩

/-! ### The enumeration of `dump` -/

theorem cstrFrom_cstr : ∀ (l s : List Byte), cstrFrom l = some s → cstr s = s := by
  intro l
  induction l with
  | nil => intro s h; simp [cstrFrom] at h
  | cons b rest ih =>
    intro s h
    by_cases hb : b.val = 0
    · simp [cstrFrom, hb] at h; subst h; rfl
    · simp only [cstrFrom, hb, if_false, Option.map_eq_some'] at h
      obtain ⟨t, ht, rfl⟩ := h
      have := ih t ht
      simp only [cstr] at this ⊢
      rw [List.takeWhile_cons_of_pos (by simpa using hb), this]

theorem loadCStr_cstr (mem : Memory) (a : Nat) (s : List Byte) (h : mem.loadCStr a = some s) :
    cstr s = s := by
  unfold Memory.loadCStr at h
  split at h
  · simp at h
  · exact cstrFrom_cstr _ s h

/-- What `symbolRow` prints for a record: nothing or one name, and a printed name is the name
of the record. -/
theorem symbolRow_cases (self : DynamicSymbolInfo) (mem : Memory) (j : Nat) :
    symbolRow self mem j = .fault ∨ symbolRow self mem j = .ret [] ∨
      ∃ nm, symbolRow self mem j = .ret [nm] ∧ NamedAt self mem j nm := by
  unfold symbolRow NamedAt
  cases hoff : stNameAt self mem j with
  | none => simp
  | some off =>
    simp only [Outcome.ofRead_some, Outcome.bind_ret]
    by_cases hlt : off < self.mStringTableSize
    · by_cases hne : self.mStringTable + off ≠ 0
      · cases hs : mem.loadCStr (self.mStringTable + off) with
        | none => simp [hlt, hne]
        | some s =>
          refine Or.inr (Or.inr ⟨s, by simp [hlt, hne, hs], off, rfl, hlt, hs⟩)
      · simp [hlt, hne]
    · simp [hlt]

theorem symbolRow_of_named (self : DynamicSymbolInfo) (mem : Memory) (j : Nat) (nm : List Byte)
    (hstr : self.mStringTable ≠ 0) (h : NamedAt self mem j nm) :
    symbolRow self mem j = .ret [nm] := by
  obtain ⟨off, hoff, hlt, hs⟩ := h
  have hne : self.mStringTable + off ≠ 0 := by omega
  simp [symbolRow, hoff, hlt, hs, hstr]

/-- The record that `dump` prints as `nm` is matched by `hasSymbol` looking for `nm`. -/
theorem symbolMatches_of_row (self : DynamicSymbolInfo) (mem : Memory) (j : Nat)
    (nm : List Byte) (h : symbolRow self mem j = .ret [nm]) :
    symbolMatches self mem nm j = .ret true := by
  unfold symbolRow at h
  unfold symbolMatches
  cases hoff : stNameAt self mem j with
  | none => rw [hoff] at h; simp at h
  | some off =>
    rw [hoff] at h
    simp only [Outcome.ofRead_some, Outcome.bind_ret] at h ⊢
    by_cases hlt : off < self.mStringTableSize
    · by_cases hne : self.mStringTable + off ≠ 0
      · cases hs : mem.loadCStr (self.mStringTable + off) with
        | none => simp [hlt, hne, hs] at h
        | some s =>
          simp only [hlt, hne, hs, if_true, ne_eq, not_false_eq_true, Outcome.ofRead_some,
            Outcome.bind_ret, Outcome.ret.injEq, List.cons.injEq, and_true] at h ⊢
          subst h
          simp [loadCStr_cstr mem _ s hs]
      · simp [hlt, hne] at h
    · simp [hlt] at h

/-- Where `dump` reads a record without fault, so does `hasSymbol`. -/
theorem symbolMatches_of_row_ret (self : DynamicSymbolInfo) (mem : Memory) (j : Nat)
    (nm : List Byte) (row : List (List Byte)) (h : symbolRow self mem j = .ret row) :
    ∃ b, symbolMatches self mem nm j = .ret b := by
  unfold symbolRow at h
  unfold symbolMatches
  cases hoff : stNameAt self mem j with
  | none => rw [hoff] at h; simp at h
  | some off =>
    rw [hoff] at h
    simp only [Outcome.ofRead_some, Outcome.bind_ret] at h ⊢
    by_cases hlt : off < self.mStringTableSize
    · by_cases hne : self.mStringTable + off ≠ 0
      · cases hs : mem.loadCStr (self.mStringTable + off) with
        | none => simp [hlt, hne, hs] at h
        | some s => exact ⟨decide (s = cstr nm), by simp [hlt, hne]⟩
      · exact ⟨false, by simp [hlt, hne]⟩
    · exact ⟨false, by simp [hlt]⟩

/-- The shape of a returning chain walk of `dump` from a non-zero cursor. -/
theorem dumpChain_succ_ret (self : DynamicSymbolInfo) (mem : Memory) (fuel j : Nat)
    (rows : List (List Byte)) (hj : j ≠ STN_UNDEF)
    (h : dumpChain self mem (fuel + 1) j = .ret rows) :
    ∃ row next rest, symbolRow self mem j = .ret row ∧ chainAt self mem j = some next ∧
      dumpChain self mem fuel next = .ret rest ∧ rows = row ++ rest := by
  simp only [dumpChain, hj, if_false] at h
  cases hr : symbolRow self mem j with
  | ret row =>
    rw [hr] at h
    cases hc : chainAt self mem j with
    | none => rw [hc] at h; simp at h
    | some next =>
      rw [hc] at h
      simp only [Outcome.bind_ret, Outcome.ofRead_some] at h
      cases hd : dumpChain self mem fuel next with
      | ret rest =>
        rw [hd] at h
        simp only [Outcome.bind_ret, Outcome.ret.injEq] at h
        exact ⟨row, next, rest, rfl, rfl, hd, h.symm⟩
      | abort => rw [hd] at h; simp at h
      | fault => rw [hd] at h; simp at h
      | timeout => rw [hd] at h; simp at h
  | abort => rw [hr] at h; simp at h
  | fault => rw [hr] at h; simp at h
  | timeout => rw [hr] at h; simp at h

theorem row_mem (self : DynamicSymbolInfo) (mem : Memory) (j : Nat) (row : List (List Byte))
    (nm : List Byte) (hr : symbolRow self mem j = .ret row) (hn : nm ∈ row) :
    symbolRow self mem j = .ret [nm] ∧ NamedAt self mem j nm := by
  rcases symbolRow_cases self mem j with h | h | ⟨nm', h, hnamed⟩
  · rw [h] at hr; simp at hr
  · rw [h] at hr; cases hr; simp at hn
  · rw [h] at hr
    cases hr
    simp only [List.mem_singleton] at hn
    subst hn
    exact ⟨h, hnamed⟩

/-- A name printed by a chain walk of `dump` belongs to a record on that chain, and the chain
walk of `hasSymbol` from the same head finds it. -/
theorem dumpChain_mem (self : DynamicSymbolInfo) (mem : Memory) (nm : List Byte) :
    ∀ fuel head rows, dumpChain self mem fuel head = .ret rows → nm ∈ rows →
      (∃ j, OnChain self mem head j ∧ NamedAt self mem j nm) ∧
      ∃ fuel', hasSymbolLoop self mem nm fuel' head = .ret true := by
  intro fuel
  induction fuel with
  | zero => intro head rows h; simp [dumpChain] at h
  | succ fuel ih =>
    intro head rows h hn
    by_cases h0 : head = STN_UNDEF
    · simp [dumpChain, h0] at h; subst h; simp at hn
    · obtain ⟨row, next, rest, hr, hc, hd, rfl⟩ := dumpChain_succ_ret self mem fuel head rows h0 h
      rcases List.mem_append.1 hn with hrow | hrest
      · obtain ⟨hr1, hnamed⟩ := row_mem self mem head row nm hr hrow
        refine ⟨⟨head, ⟨h0, 0, rfl⟩, hnamed⟩, 1, ?_⟩
        simp [hasSymbolLoop, h0, symbolMatches_of_row self mem head nm hr1]
      · obtain ⟨⟨j, ⟨hj0, k, hk⟩, hnamed⟩, fuel', hf⟩ := ih next rest hd hrest
        refine ⟨⟨j, ⟨hj0, k + 1, by simp [cursorAfter, h0, hc, hk]⟩, hnamed⟩, ?_⟩
        obtain ⟨b, hm⟩ := symbolMatches_of_row_ret self mem head nm row hr
        cases b with
        | true => exact ⟨1, by simp [hasSymbolLoop, h0, hm]⟩
        | false => exact ⟨fuel' + 1, by simp [hasSymbolLoop, h0, hm, hc, hf]⟩

/-- The shape of a returning run of the bucket loop of `dump`. -/
theorem dumpBuckets_succ_ret (self : DynamicSymbolInfo) (mem : Memory) (fuel n i : Nat)
    (names : List (List Byte)) (h : dumpBuckets self mem fuel (n + 1) i = .ret names) :
    ∃ head rows more, bucketAt self mem i = some head ∧
      (head ≠ STN_UNDEF → dumpChain self mem fuel head = .ret rows) ∧
      (head = STN_UNDEF → rows = []) ∧
      dumpBuckets self mem fuel n (i + 1) = .ret more ∧ names = rows ++ more := by
  simp only [dumpBuckets] at h
  cases hb : bucketAt self mem i with
  | none => rw [hb] at h; simp at h
  | some head =>
    rw [hb] at h
    simp only [Outcome.ofRead_some, Outcome.bind_ret] at h
    by_cases h0 : head = STN_UNDEF
    · simp only [h0, ne_eq, not_true_eq_false, if_false] at h
      exact ⟨head, [], names, rfl, fun hx => absurd h0 hx, fun _ => rfl, h, rfl⟩
    · simp only [ne_eq, h0, not_false_eq_true, if_true] at h
      cases hd : dumpChain self mem fuel head with
      | ret rows =>
        rw [hd] at h
        simp only [Outcome.bind_ret] at h
        cases hm : dumpBuckets self mem fuel n (i + 1) with
        | ret more =>
          rw [hm] at h
          simp only [Outcome.bind_ret, Outcome.ret.injEq] at h
          exact ⟨head, rows, more, rfl, fun _ => hd, fun hx => absurd hx h0, rfl, h.symm⟩
        | abort => rw [hm] at h; simp at h
        | fault => rw [hm] at h; simp at h
        | timeout => rw [hm] at h; simp at h
      | abort => rw [hd] at h; simp at h
      | fault => rw [hd] at h; simp at h
      | timeout => rw [hd] at h; simp at h

/-- A name printed by the bucket loop of `dump` was printed by the chain walk of one of the
buckets visited. -/
theorem dumpBuckets_mem (self : DynamicSymbolInfo) (mem : Memory) (fuel : Nat)
    (nm : List Byte) :
    ∀ n i names, dumpBuckets self mem fuel n i = .ret names → nm ∈ names →
      ∃ i' head rows, i ≤ i' ∧ i' < i + n ∧ bucketAt self mem i' = some head ∧
        dumpChain self mem fuel head = .ret rows ∧ nm ∈ rows := by
  intro n
  induction n with
  | zero => intro i names h hn; simp [dumpBuckets] at h; subst h; simp at hn
  | succ n ih =>
    intro i names h hn
    obtain ⟨head, rows, more, hb, hd, hz, hm, rfl⟩ := dumpBuckets_succ_ret self mem fuel n i names h
    rcases List.mem_append.1 hn with hrow | hrest
    · by_cases h0 : head = STN_UNDEF
      · rw [hz h0] at hrow; simp at hrow
      · exact ⟨i, head, rows, le_refl _, by omega, hb, hd h0, hrow⟩
    · obtain ⟨i', head', rows', h1, h2, h3, h4, h5⟩ := ih (i + 1) more hm hrest
      exact ⟨i', head', rows', by omega, by omega, h3, h4, h5⟩

/-- A returning `dump` passed both assertions and is the bucket loop over all buckets. -/
theorem dump_ret (self : DynamicSymbolInfo) (mem : Memory) (fuel : Nat)
    (names : List (List Byte)) (h : dump self mem fuel = .ret names) :
    self.mSymbolTable ≠ 0 ∧ self.mStringTable ≠ 0 ∧
      dumpBuckets self mem fuel self.mHashTable.mNumBucket 0 = .ret names := by
  unfold dump at h
  by_cases hsym : self.mSymbolTable = 0
  · simp [hsym] at h
  · by_cases hstr : self.mStringTable = 0
    · simp [hsym, hstr] at h
    · simp only [hsym, hstr, if_false] at h
      exact ⟨hsym, hstr, h⟩

/-- C4 (counterexample): in `misplacedInfo` the symbol named `"a"` sits in bucket 0 while its
hash selects bucket 1; the enumeration yields `"a"`, and `hasSymbol` never returns true for
it. -/
theorem dump_name_not_found :
    parse misplacedMem .zero misplacedLm = .ret misplacedInfo ∧
    dump misplacedInfo misplacedMem 2 = .ret [[97]] ∧
    ∀ fuel, hasSymbol misplacedInfo misplacedMem [97] fuel ≠ .ret true := by
  refine ⟨by decide, by decide, fun fuel => ?_⟩
  cases fuel with
  | zero => decide
  | succ n =>
    have h : hasSymbol misplacedInfo misplacedMem [97] (n + 1) = .ret false := rfl
    rw [h]; decide

/-- C4 (amended): round trip between bulk and point query.  For every index in which each
named chain entry sits in the bucket that the hash of its name selects, and every name that a
completed enumeration (`dump`) yields, `hasSymbol` on the same index and name returns true. -/
theorem dump_name_hasSymbol (self : DynamicSymbolInfo) (mem : Memory) (fuel : Nat)
    (names : List (List Byte)) (nm : List Byte)
    (hcons : HashConsistent self mem)
    (hd : dump self mem fuel = .ret names) (hn : nm ∈ names) :
    ∃ fuel', hasSymbol self mem nm fuel' = .ret true := by
  obtain ⟨hsym, hstr, hb⟩ := dump_ret self mem fuel names hd
  obtain ⟨i, head, rows, -, hi, hbk, hch, hrow⟩ :=
    dumpBuckets_mem self mem fuel nm _ 0 names hb hn
  obtain ⟨⟨j, hj, hnamed⟩, fuel', hf⟩ := dumpChain_mem self mem nm fuel head rows hch hrow
  have hi' : i < self.mHashTable.mNumBucket := by omega
  have hh : elfHash nm % self.mHashTable.mNumBucket = i := hcons i head j nm hi' hbk hj hnamed
  have hnb : self.mHashTable.mNumBucket ≠ 0 := by omega
  exact ⟨fuel', by simp [hasSymbol, hsym, hstr, hnb, hh, hbk, hf]⟩

theorem wideInfo_named (j off : Nat) (s nm : List Byte)
    (hoff : stNameAt wideInfo wideMem j = some off)
    (hs : wideMem.loadCStr (wideInfo.mStringTable + off) = some s)
    (h : NamedAt wideInfo wideMem j nm) : nm = s := by
  obtain ⟨off', h1, -, h3⟩ := h
  rw [hoff] at h1
  cases h1
  rw [hs] at h3
  exact (Option.some.inj h3).symm

theorem wideInfo_chain0 (j : Nat) (h : OnChain wideInfo wideMem 3 j) : j = 3 ∨ j = 2 := by
  obtain ⟨hj, k, hk⟩ := h
  match k, hk with
  | 0, hk => exact Or.inl (Option.some.inj hk).symm
  | 1, hk => exact Or.inr (Option.some.inj hk).symm
  | 2, hk => exact absurd (Option.some.inj hk).symm hj
  | k + 3, hk =>
    have hnone : cursorAfter wideInfo wideMem (k + 3) 3 = none := rfl
    rw [hnone] at hk; cases hk

theorem wideInfo_chain1 (j : Nat) (h : OnChain wideInfo wideMem 4 j) : j = 4 := by
  obtain ⟨hj, k, hk⟩ := h
  match k, hk with
  | 0, hk => exact (Option.some.inj hk).symm
  | 1, hk => exact absurd (Option.some.inj hk).symm hj
  | k + 2, hk =>
    have hnone : cursorAfter wideInfo wideMem (k + 2) 4 = none := rfl
    rw [hnone] at hk; cases hk

theorem wideInfo_bucket (i head : Nat) (hi : i < 2) (hb : bucketAt wideInfo wideMem i = some head) :
    (i = 0 ∧ head = 3) ∨ (i = 1 ∧ head = 4) := by
  interval_cases i
  · exact Or.inl ⟨rfl, (Option.some.inj hb).symm⟩
  · exact Or.inr ⟨rfl, (Option.some.inj hb).symm⟩

theorem wideInfo_consistent : HashConsistent wideInfo wideMem := by
  intro i head j nm hi hb hon hnamed
  rcases wideInfo_bucket i head hi hb with ⟨rfl, rfl⟩ | ⟨rfl, rfl⟩
  · rcases wideInfo_chain0 j hon with rfl | rfl
    · rw [wideInfo_named 3 1 [98] nm (by decide) (by decide) hnamed]; decide
    · rw [wideInfo_named 2 3 [100] nm (by decide) (by decide) hnamed]; decide
  · rw [wideInfo_chain1 j hon] at hnamed
    rw [wideInfo_named 4 5 [97] nm (by decide) (by decide) hnamed]; decide

/-- Witness of C4 (amended): the table with two buckets is hash-consistent, its enumeration
yields `"b"`, `"d"`, `"a"`, and `hasSymbol` returns true for `"d"`. -/
theorem dump_name_hasSymbol_witness :
    (HashConsistent wideInfo wideMem ∧ dump wideInfo wideMem 3 = .ret [[98], [100], [97]]) ∧
    ∃ fuel', hasSymbol wideInfo wideMem [100] fuel' = .ret true :=
  ⟨⟨wideInfo_consistent, by decide⟩,
    dump_name_hasSymbol wideInfo wideMem 3 [[98], [100], [97]] [100] wideInfo_consistent
      (by decide) (by decide)⟩

/-! ### Budgets: an outcome other than `timeout` is stable under a larger budget -/

theorem dumpChain_mono_succ (self : DynamicSymbolInfo) (mem : Memory) :
    ∀ fuel j o, dumpChain self mem fuel j = o → o ≠ .timeout →
      dumpChain self mem (fuel + 1) j = o := by
  intro fuel
  induction fuel with
  | zero => intro j o h ho; exact absurd (h.symm.trans rfl) ho
  | succ fuel ih =>
    intro j o h ho
    by_cases h0 : j = STN_UNDEF
    · rw [← h]; simp [dumpChain, h0]
    · rw [dumpChain, if_neg h0] at h ⊢
      cases hr : symbolRow self mem j with
      | ret row =>
        rw [hr] at h
        cases hc : chainAt self mem j with
        | none => rw [hc] at h; exact h
        | some next =>
          rw [hc] at h
          simp only [Outcome.bind_ret, Outcome.ofRead_some] at h ⊢
          cases hd : dumpChain self mem fuel next with
          | timeout => rw [hd] at h; exact absurd h.symm ho
          | ret rest => rw [ih next _ hd (by simp)]; rw [hd] at h; exact h
          | abort => rw [ih next _ hd (by simp)]; rw [hd] at h; exact h
          | fault => rw [ih next _ hd (by simp)]; rw [hd] at h; exact h
      | abort => rw [hr] at h; exact h
      | fault => rw [hr] at h; exact h
      | timeout => rw [hr] at h; exact h

theorem dumpChain_mono (self : DynamicSymbolInfo) (mem : Memory) (fuel fuel' j : Nat)
    (o : Outcome (List (List Byte))) (hle : fuel ≤ fuel')
    (h : dumpChain self mem fuel j = o) (ho : o ≠ .timeout) :
    dumpChain self mem fuel' j = o := by
  induction hle with
  | refl => exact h
  | step _ ih => exact dumpChain_mono_succ self mem _ j o ih ho

theorem dumpBuckets_mono (self : DynamicSymbolInfo) (mem : Memory) (fuel fuel' : Nat)
    (hle : fuel ≤ fuel') :
    ∀ n i o, dumpBuckets self mem fuel n i = o → o ≠ .timeout →
      dumpBuckets self mem fuel' n i = o := by
  intro n
  induction n with
  | zero => intro i o h _; rw [← h]; rfl
  | succ n ih =>
    intro i o h ho
    rw [dumpBuckets] at h ⊢
    cases hb : bucketAt self mem i with
    | none => rw [hb] at h; exact h
    | some head =>
      rw [hb] at h
      simp only [Outcome.ofRead_some, Outcome.bind_ret] at h ⊢
      by_cases h0 : head = STN_UNDEF
      · simp only [h0, ne_eq, not_true_eq_false, if_false] at h ⊢
        exact ih (i + 1) o h ho
      · simp only [ne_eq, h0, not_false_eq_true, if_true] at h ⊢
        cases hd : dumpChain self mem fuel head with
        | timeout => rw [hd] at h; exact absurd h.symm ho
        | ret rows =>
          rw [dumpChain_mono self mem fuel fuel' head _ hle hd (by simp)]
          rw [hd] at h
          simp only [Outcome.bind_ret] at h ⊢
          cases hm : dumpBuckets self mem fuel n (i + 1) with
          | timeout => rw [hm] at h; exact absurd h.symm ho
          | ret more => rw [ih (i + 1) _ hm (by simp)]; rw [hm] at h; exact h
          | abort => rw [ih (i + 1) _ hm (by simp)]; rw [hm] at h; exact h
          | fault => rw [ih (i + 1) _ hm (by simp)]; rw [hm] at h; exact h
        | abort =>
          rw [dumpChain_mono self mem fuel fuel' head _ hle hd (by simp)]; rw [hd] at h; exact h
        | fault =>
          rw [dumpChain_mono self mem fuel fuel' head _ hle hd (by simp)]; rw [hd] at h; exact h

theorem symbolRow_ne_abort (self : DynamicSymbolInfo) (mem : Memory) (j : Nat) :
    symbolRow self mem j ≠ .abort ∧ symbolRow self mem j ≠ .timeout := by
  rcases symbolRow_cases self mem j with h | h | ⟨nm, h, -⟩ <;> rw [h] <;> simp

/-- The loops of `dump` contain no assertion. -/
theorem dumpChain_ne_abort (self : DynamicSymbolInfo) (mem : Memory) :
    ∀ fuel j, dumpChain self mem fuel j ≠ .abort := by
  intro fuel
  induction fuel with
  | zero => intro j; simp [dumpChain]
  | succ fuel ih =>
    intro j
    by_cases h0 : j = STN_UNDEF
    · simp [dumpChain, h0]
    · rw [dumpChain, if_neg h0]
      have hsr := symbolRow_ne_abort self mem j
      cases hr : symbolRow self mem j with
      | ret row =>
        cases hc : chainAt self mem j with
        | none => simp
        | some next =>
          simp only [Outcome.bind_ret, Outcome.ofRead_some]
          have := ih next
          cases hd : dumpChain self mem fuel next with
          | abort => exact absurd hd this
          | ret rest => simp
          | fault => simp
          | timeout => simp
      | abort => exact absurd hr hsr.1
      | fault => simp
      | timeout => simp

theorem dumpBuckets_ne_abort (self : DynamicSymbolInfo) (mem : Memory) (fuel : Nat) :
    ∀ n i, dumpBuckets self mem fuel n i ≠ .abort := by
  intro n
  induction n with
  | zero => intro i; simp [dumpBuckets]
  | succ n ih =>
    intro i
    rw [dumpBuckets]
    cases hb : bucketAt self mem i with
    | none => simp
    | some head =>
      simp only [Outcome.ofRead_some, Outcome.bind_ret]
      by_cases h0 : head = STN_UNDEF
      · simp only [h0, ne_eq, not_true_eq_false, if_false]; exact ih (i + 1)
      · simp only [ne_eq, h0, not_false_eq_true, if_true]
        have h1 := dumpChain_ne_abort self mem fuel head
        have h2 := ih (i + 1)
        cases hd : dumpChain self mem fuel head with
        | abort => exact absurd hd h1
        | ret rows =>
          simp only [Outcome.bind_ret]
          cases hm : dumpBuckets self mem fuel n (i + 1) with
          | abort => exact absurd hm h2
          | ret more => simp
          | fault => simp
          | timeout => simp
        | fault => simp
        | timeout => simp

/-- A chain that ends after `k` links is walked by `dump` within `k + 1` iterations. -/
theorem dumpChain_ends (self : DynamicSymbolInfo) (mem : Memory) :
    ∀ k head, cursorAfter self mem k head = some STN_UNDEF →
      dumpChain self mem (k + 1) head ≠ .timeout := by
  intro k
  induction k with
  | zero =>
    intro head h
    simp only [cursorAfter, Option.some.injEq] at h
    simp [dumpChain, h]
  | succ k ih =>
    intro head h
    by_cases h0 : head = STN_UNDEF
    · simp [dumpChain, h0]
    · simp only [cursorAfter, h0, if_false] at h
      cases hc : chainAt self mem head with
      | none => rw [hc] at h; simp at h
      | some next =>
        rw [hc] at h
        simp only [Option.some_bind] at h
        have hn := ih next h
        have hsr := symbolRow_ne_abort self mem head
        rw [dumpChain, if_neg h0, hc]
        cases hr : symbolRow self mem head with
        | ret row =>
          simp only [Outcome.bind_ret, Outcome.ofRead_some]
          cases hd : dumpChain self mem (k + 1) next with
          | timeout => exact absurd hd hn
          | ret rest => simp
          | abort => simp
          | fault => simp
        | abort => simp
        | fault => simp
        | timeout => exact absurd hr hsr.2

/-- When the chain of every visited bucket ends, some budget lets the bucket loop of `dump`
finish. -/
theorem dumpBuckets_ends (self : DynamicSymbolInfo) (mem : Memory) :
    ∀ n i, (∀ i' head, i ≤ i' → i' < i + n → bucketAt self mem i' = some head →
        ChainEnds self mem head) →
      ∃ fuel, dumpBuckets self mem fuel n i ≠ .timeout := by
  intro n
  induction n with
  | zero => intro i _; exact ⟨0, by simp [dumpBuckets]⟩
  | succ n ih =>
    intro i hends
    obtain ⟨f2, hf2⟩ := ih (i + 1) (fun i' head h1 h2 => hends i' head (by omega) (by omega))
    cases hb : bucketAt self mem i with
    | none => exact ⟨0, by simp [dumpBuckets, hb]⟩
    | some head =>
      by_cases h0 : head = STN_UNDEF
      · exact ⟨f2, by simpa [dumpBuckets, hb, h0] using hf2⟩
      · obtain ⟨k, hk⟩ := hends i head (le_refl _) (by omega) hb
        have hf1 := dumpChain_ends self mem k head hk
        refine ⟨max (k + 1) f2, ?_⟩
        have e1 := dumpChain_mono self mem (k + 1) (max (k + 1) f2) head _ (le_max_left _ _)
          rfl hf1
        have e2 := dumpBuckets_mono self mem f2 (max (k + 1) f2) (le_max_right _ _) n (i + 1) _
          rfl hf2
        rw [dumpBuckets, hb]
        simp only [Outcome.ofRead_some, Outcome.bind_ret, ne_eq, h0, not_false_eq_true, if_true]
        rw [e1, e2]
        cases hd : dumpChain self mem (k + 1) head with
        | timeout => exact absurd hd hf1
        | ret rows =>
          simp only [Outcome.bind_ret]
          cases hm : dumpBuckets self mem f2 n (i + 1) with
          | timeout => exact absurd hm hf2
          | ret more => simp
          | abort => simp
          | fault => simp
        | abort => simp
        | fault => simp

/-! ### Every record on a chain is printed -/

theorem onChain_head_ne (self : DynamicSymbolInfo) (mem : Memory) (head j : Nat)
    (h : OnChain self mem head j) : head ≠ STN_UNDEF := by
  obtain ⟨hj, k, hk⟩ := h
  intro h0
  cases k with
  | zero => simp only [cursorAfter, Option.some.injEq] at hk; exact hj (hk ▸ h0)
  | succ k => simp [cursorAfter, h0] at hk

theorem dumpChain_complete (self : DynamicSymbolInfo) (mem : Memory) (nm : List Byte) (j : Nat)
    (hstr : self.mStringTable ≠ 0) (hj : j ≠ STN_UNDEF) (hnamed : NamedAt self mem j nm) :
    ∀ fuel head rows k, dumpChain self mem fuel head = .ret rows →
      cursorAfter self mem k head = some j → nm ∈ rows := by
  intro fuel
  induction fuel with
  | zero => intro head rows k h; simp [dumpChain] at h
  | succ fuel ih =>
    intro head rows k h hk
    have h0 : head ≠ STN_UNDEF := onChain_head_ne self mem head j ⟨hj, k, hk⟩
    obtain ⟨row, next, rest, hr, hc, hd, rfl⟩ := dumpChain_succ_ret self mem fuel head rows h0 h
    cases k with
    | zero =>
      simp only [cursorAfter, Option.some.injEq] at hk
      subst hk
      rw [symbolRow_of_named self mem head nm hstr hnamed] at hr
      cases hr
      simp
    | succ k =>
      simp only [cursorAfter, h0, if_false, hc, Option.some_bind] at hk
      exact List.mem_append_right _ (ih next rest k hd hk)

theorem dumpBuckets_complete (self : DynamicSymbolInfo) (mem : Memory) (fuel : Nat)
    (nm : List Byte) (j : Nat) (hstr : self.mStringTable ≠ 0)
    (hnamed : NamedAt self mem j nm) :
    ∀ n i names, dumpBuckets self mem fuel n i = .ret names →
      ∀ i' head, i ≤ i' → i' < i + n → bucketAt self mem i' = some head →
        OnChain self mem head j → nm ∈ names := by
  intro n
  induction n with
  | zero => intro i names _ i' head h1 h2; omega
  | succ n ih =>
    intro i names h i' head' h1 h2 hb' hon
    obtain ⟨head, rows, more, hb, hd, -, hm, rfl⟩ := dumpBuckets_succ_ret self mem fuel n i names h
    by_cases hi : i' = i
    · subst hi
      rw [hb] at hb'
      rw [← Option.some.inj hb'] at hon
      obtain ⟨hj, k, hk⟩ := hon
      have h0 := onChain_head_ne self mem head j ⟨hj, k, hk⟩
      exact List.mem_append_left _
        (dumpChain_complete self mem nm j hstr hj hnamed fuel head rows k (hd h0) hk)
    · exact List.mem_append_right _
        (ih (i + 1) more hm i' head' (by omega) (by omega) hb' hon)

/-- The first part of a returning `hasSymbol`: both assertions passed, there is a bucket, and
the chain walk from the selected bucket returned the result. -/
theorem hasSymbol_ret_true (self : DynamicSymbolInfo) (mem : Memory) (name : List Byte)
    (fuel : Nat) (h : hasSymbol self mem name fuel = .ret true) :
    self.mSymbolTable ≠ 0 ∧ self.mStringTable ≠ 0 ∧ 0 < self.mHashTable.mNumBucket ∧
      ∃ head, bucketAt self mem (elfHash name % self.mHashTable.mNumBucket) = some head ∧
        hasSymbolLoop self mem name fuel head = .ret true := by
  unfold hasSymbol at h
  by_cases hsym : self.mSymbolTable = 0
  · simp [hsym] at h
  · by_cases hstr : self.mStringTable = 0
    · simp [hsym, hstr] at h
    · by_cases hnb : self.mHashTable.mNumBucket = 0
      · simp [hsym, hstr, hnb] at h
      · simp only [hsym, hstr, hnb, if_false] at h
        cases hb : bucketAt self mem (elfHash name % self.mHashTable.mNumBucket) with
        | none => rw [hb] at h; simp at h
        | some head =>
          rw [hb] at h
          exact ⟨hsym, hstr, by omega, head, rfl, h⟩

/-- C5: for every index whose chains terminate (and an enumeration that reads only mapped
memory) and every name, if `hasSymbol` returns true then the enumeration runs to completion
and that name is among the names it yields. -/
theorem hasSymbol_true_in_dump (self : DynamicSymbolInfo) (mem : Memory)
    (symbol_name : List Byte) (fuel : Nat)
    (hends : ∀ i head, i < self.mHashTable.mNumBucket → bucketAt self mem i = some head →
      ChainEnds self mem head)
    (hmem : ∀ fuel', dump self mem fuel' ≠ .fault)
    (h : hasSymbol self mem symbol_name fuel = .ret true) :
    ∃ fuel' names, dump self mem fuel' = .ret names ∧ cstr symbol_name ∈ names := by
  obtain ⟨hsym, hstr, hnb, head, hb, hloop⟩ := hasSymbol_ret_true self mem symbol_name fuel h
  obtain ⟨j, hon, hnamed⟩ := hasSymbolLoop_true_onChain self mem symbol_name hstr fuel head hloop
  have hdump : ∀ f, dump self mem f = dumpBuckets self mem f self.mHashTable.mNumBucket 0 := by
    intro f; simp [dump, hsym, hstr]
  obtain ⟨F, hF⟩ := dumpBuckets_ends self mem self.mHashTable.mNumBucket 0
    (fun i' hd _ h2 hbk => hends i' hd (by omega) hbk)
  have hfault := hmem F
  rw [hdump] at hfault
  have habort := dumpBuckets_ne_abort self mem F self.mHashTable.mNumBucket 0
  cases hres : dumpBuckets self mem F self.mHashTable.mNumBucket 0 with
  | ret names =>
    refine ⟨F, names, by rw [hdump, hres], ?_⟩
    exact dumpBuckets_complete self mem F (cstr symbol_name) j hstr hnamed _ 0 names hres
      (elfHash symbol_name % self.mHashTable.mNumBucket) head (Nat.zero_le _)
      (by have := Nat.mod_lt (elfHash symbol_name) hnb; omega) hb hon
  | abort => exact absurd hres habort
  | fault => exact absurd hres hfault
  | timeout => exact absurd hres hF

theorem wideInfo_ends (i head : Nat) (hi : i < wideInfo.mHashTable.mNumBucket)
    (hb : bucketAt wideInfo wideMem i = some head) : ChainEnds wideInfo wideMem head := by
  rcases wideInfo_bucket i head hi hb with ⟨-, rfl⟩ | ⟨-, rfl⟩
  · exact ⟨2, by decide⟩
  · exact ⟨1, by decide⟩

theorem wideInfo_dump (fuel : Nat) :
    dump wideInfo wideMem (fuel + 3) = .ret [[98], [100], [97]] := rfl

theorem wideInfo_dump_safe (fuel : Nat) : dump wideInfo wideMem fuel ≠ .fault := by
  match fuel with
  | 0 => decide
  | 1 => decide
  | 2 => decide
  | n + 3 => rw [wideInfo_dump]; exact Outcome.noConfusion

/-- Witness of C5: on the table with two buckets `hasSymbol` returns true for `"a"`, and the
enumeration yields it. -/
theorem hasSymbol_true_in_dump_witness :
    hasSymbol wideInfo wideMem [97] 1 = .ret true ∧
    ∃ fuel' names, dump wideInfo wideMem fuel' = .ret names ∧ cstr [97] ∈ names :=
  ⟨by decide, hasSymbol_true_in_dump wideInfo wideMem [97] 1 wideInfo_ends wideInfo_dump_safe
    (by decide)⟩

/-! ### Each reachable record is printed exactly once -/

theorem cursorAfter_succ (self : DynamicSymbolInfo) (mem : Memory) (k head next : Nat)
    (h0 : head ≠ STN_UNDEF) (hc : chainAt self mem head = some next) :
    cursorAfter self mem (k + 1) head = cursorAfter self mem k next := by
  simp [cursorAfter, h0, hc]

theorem cursorAfter_trans (self : DynamicSymbolInfo) (mem : Memory) (b j x : Nat)
    (hb : cursorAfter self mem b j = some x) :
    ∀ a h, cursorAfter self mem a h = some j → cursorAfter self mem (a + b) h = some x := by
  intro a
  induction a with
  | zero =>
    intro h ha
    simp only [cursorAfter, Option.some.injEq] at ha
    subst ha
    simpa using hb
  | succ a ih =>
    intro h ha
    by_cases h0 : h = STN_UNDEF
    · simp [cursorAfter, h0] at ha
    · cases hc : chainAt self mem h with
      | none => simp [cursorAfter, h0, hc] at ha
      | some next =>
        rw [cursorAfter_succ self mem a h next h0 hc] at ha
        have e : a + 1 + b = (a + b) + 1 := by omega
        rw [e, cursorAfter_succ self mem (a + b) h next h0 hc]
        exact ih next ha

/-- A chain ends after a unique number of links. -/
theorem cursorAfter_end_unique (self : DynamicSymbolInfo) (mem : Memory) :
    ∀ a b h, cursorAfter self mem a h = some STN_UNDEF →
      cursorAfter self mem b h = some STN_UNDEF → a = b := by
  intro a
  induction a with
  | zero =>
    intro b h ha hb
    simp only [cursorAfter, Option.some.injEq] at ha
    cases b with
    | zero => rfl
    | succ b => simp [cursorAfter, ha] at hb
  | succ a ih =>
    intro b h ha hb
    by_cases h0 : h = STN_UNDEF
    · simp [cursorAfter, h0] at ha
    · cases hc : chainAt self mem h with
      | none => simp [cursorAfter, h0, hc] at ha
      | some next =>
        rw [cursorAfter_succ self mem a h next h0 hc] at ha
        cases b with
        | zero => simp only [cursorAfter, Option.some.injEq] at hb; exact absurd hb h0
        | succ b =>
          rw [cursorAfter_succ self mem b h next h0 hc] at hb
          rw [ih b next ha hb]

theorem onChain_step (self : DynamicSymbolInfo) (mem : Memory) (head next j : Nat)
    (h0 : head ≠ STN_UNDEF) (hc : chainAt self mem head = some next) :
    OnChain self mem head j ↔ j = head ∨ OnChain self mem next j := by
  constructor
  · rintro ⟨hj, k, hk⟩
    cases k with
    | zero =>
      simp only [cursorAfter, Option.some.injEq] at hk
      exact Or.inl hk.symm
    | succ k =>
      rw [cursorAfter_succ self mem k head next h0 hc] at hk
      exact Or.inr ⟨hj, k, hk⟩
  · rintro (rfl | ⟨hj, k, hk⟩)
    · exact ⟨h0, 0, rfl⟩
    · exact ⟨hj, k + 1, by rw [cursorAfter_succ self mem k head next h0 hc]; exact hk⟩

/-- The walk of `dump` along a chain that ends after `k` links, all of whose records are
named: it returns one name per record on the chain, each record once. -/
theorem dumpChain_exact (self : DynamicSymbolInfo) (mem : Memory)
    (hstr : self.mStringTable ≠ 0) :
    ∀ k head, cursorAfter self mem k head = some STN_UNDEF →
      (∀ j, OnChain self mem head j → ∃ nm, NamedAt self mem j nm) →
      ∃ idxs names, (∀ fuel, k < fuel → dumpChain self mem fuel head = .ret names) ∧
        List.Forall₂ (NamedAt self mem) idxs names ∧ idxs.Nodup ∧
        ∀ j, j ∈ idxs ↔ OnChain self mem head j := by
  intro k
  induction k with
  | zero =>
    intro head hk _
    simp only [cursorAfter, Option.some.injEq] at hk
    refine ⟨[], [], ?_, List.Forall₂.nil, List.nodup_nil, ?_⟩
    · intro fuel hf
      obtain ⟨f, rfl⟩ := Nat.exists_eq_succ_of_ne_zero (by omega : fuel ≠ 0)
      simp [dumpChain, hk]
    · intro j
      simp only [List.not_mem_nil, false_iff]
      exact fun hon => onChain_head_ne self mem head j hon hk
  | succ k ih =>
    intro head hk hnamed
    by_cases h0 : head = STN_UNDEF
    · simp [cursorAfter, h0] at hk
    · cases hc : chainAt self mem head with
      | none => simp [cursorAfter, h0, hc] at hk
      | some next =>
        have hk' := hk
        rw [cursorAfter_succ self mem k head next h0 hc] at hk'
        have hstep := onChain_step self mem head next
        obtain ⟨nm0, hnm0⟩ := hnamed head ⟨h0, 0, rfl⟩
        obtain ⟨idxs, names, hrun, hrel, hnodup, hmem⟩ := ih next hk'
          (fun j hj => hnamed j ((hstep j h0 hc).2 (Or.inr hj)))
        refine ⟨head :: idxs, nm0 :: names, ?_, List.Forall₂.cons hnm0 hrel, ?_, ?_⟩
        · intro fuel hf
          obtain ⟨f, rfl⟩ := Nat.exists_eq_succ_of_ne_zero (by omega : fuel ≠ 0)
          rw [dumpChain, if_neg h0, symbolRow_of_named self mem head nm0 hstr hnm0, hc]
          simp only [Outcome.ofRead_some, Outcome.bind_ret]
          rw [hrun f (by omega)]
          rfl
        · refine List.nodup_cons.2 ⟨?_, hnodup⟩
          intro hin
          obtain ⟨-, m, hm⟩ := (hmem head).1 hin
          have hcyc := cursorAfter_trans self mem (k + 1) head STN_UNDEF hk m next hm
          have := cursorAfter_end_unique self mem _ _ next hcyc hk'
          omega
        · intro j
          rw [List.mem_cons, hmem j, hstep j h0 hc]

theorem forallRel_append {α β : Type} (R : α → β → Prop) :
    ∀ (l1 : List α) (m1 : List β) (l2 : List α) (m2 : List β),
      List.Forall₂ R l1 m1 → List.Forall₂ R l2 m2 → List.Forall₂ R (l1 ++ l2) (m1 ++ m2) := by
  intro l1 m1 l2 m2 h1 h2
  induction h1 with
  | nil => exact h2
  | cons h _ ih => exact List.Forall₂.cons h ih

/-- The bucket loop of `dump` over buckets `i .. i+n-1` of an index whose chains end, are
pairwise disjoint and hold only named records. -/
theorem dumpBuckets_exact (self : DynamicSymbolInfo) (mem : Memory)
    (hstr : self.mStringTable ≠ 0)
    (hbuckets : ∀ i, i < self.mHashTable.mNumBucket →
      ∃ head, bucketAt self mem i = some head ∧ ChainEnds self mem head)
    (hdisj : ∀ i i' head head' j, i < self.mHashTable.mNumBucket →
      i' < self.mHashTable.mNumBucket → bucketAt self mem i = some head →
      bucketAt self mem i' = some head' → OnChain self mem head j →
      OnChain self mem head' j → i = i')
    (hnamed : ∀ j, Reachable self mem j → ∃ nm, NamedAt self mem j nm) :
    ∀ n i, i + n ≤ self.mHashTable.mNumBucket →
      ∃ F idxs names, (∀ fuel, F ≤ fuel → dumpBuckets self mem fuel n i = .ret names) ∧
        List.Forall₂ (NamedAt self mem) idxs names ∧ idxs.Nodup ∧
        ∀ j, j ∈ idxs ↔ ∃ i' head, i ≤ i' ∧ i' < i + n ∧ bucketAt self mem i' = some head ∧
          OnChain self mem head j := by
  intro n
  induction n with
  | zero =>
    intro i _
    refine ⟨0, [], [], fun fuel _ => rfl, List.Forall₂.nil, List.nodup_nil, ?_⟩
    intro j
    simp only [List.not_mem_nil, false_iff]
    rintro ⟨i', head, h1, h2, -⟩
    omega
  | succ n ih =>
    intro i hi
    obtain ⟨F2, idxs2, names2, hrun2, hrel2, hnodup2, hmem2⟩ := ih (i + 1) (by omega)
    obtain ⟨head, hb, k, hk⟩ := hbuckets i (by omega)
    obtain ⟨idxs1, names1, hrun1, hrel1, hnodup1, hmem1⟩ := dumpChain_exact self mem hstr k head
      hk (fun j hj => hnamed j ⟨i, head, by omega, hb, hj⟩)
    refine ⟨max (k + 1) F2, idxs1 ++ idxs2, names1 ++ names2, ?_,
      forallRel_append _ _ _ _ _ hrel1 hrel2, ?_, ?_⟩
    · intro fuel hf
      have hf1 : k < fuel := by have := le_max_left (k + 1) F2; omega
      have hf2 : F2 ≤ fuel := le_trans (le_max_right _ _) hf
      rw [dumpBuckets, hb]
      simp only [Outcome.ofRead_some, Outcome.bind_ret]
      by_cases h0 : head = STN_UNDEF
      · have hnil : idxs1 = [] := by
          apply List.eq_nil_iff_forall_not_mem.2
          intro j hj
          exact onChain_head_ne self mem head j ((hmem1 j).1 hj) h0
        rw [hnil] at hrel1
        cases hrel1
        simp only [h0, ne_eq, not_true_eq_false, if_false, List.nil_append]
        exact hrun2 fuel hf2
      · simp only [ne_eq, h0, not_false_eq_true, if_true]
        rw [hrun1 fuel hf1]
        simp only [Outcome.bind_ret]
        rw [hrun2 fuel hf2]
        rfl
    · refine List.nodup_append.2 ⟨hnodup1, hnodup2, ?_⟩
      intro j hj1 hj2
      obtain ⟨i', head', h1, h2, hb', hon'⟩ := (hmem2 j).1 hj2
      have := hdisj i i' head head' j (by omega) (by omega) hb hb' ((hmem1 j).1 hj1) hon'
      omega
    · intro j
      rw [List.mem_append, hmem1 j, hmem2 j]
      constructor
      · rintro (hon | ⟨i', head', h1, h2, hb', hon'⟩)
        · exact ⟨i, head, le_refl _, by omega, hb, hon⟩
        · exact ⟨i', head', by omega, by omega, hb', hon'⟩
      · rintro ⟨i', head', h1, h2, hb', hon'⟩
        by_cases hii : i' = i
        · subst hii
          rw [hb] at hb'
          rw [← Option.some.inj hb'] at hon'
          exact Or.inl hon'
        · exact Or.inr ⟨i', head', by omega, by omega, hb', hon'⟩

/-- C7: for every index (tables present, buckets readable) whose bucket chains end, are
pairwise disjoint and together reach exactly the symbol indices of the finite set `S`, each
of them named by an in-bounds string, the enumeration returns exactly `|S|` names: the names
of a duplicate-free list of symbol indices that is exactly `S`, one name per index. -/
theorem dump_yields_each_once (self : DynamicSymbolInfo) (mem : Memory) (S : Finset Nat)
    (hsym : self.mSymbolTable ≠ 0) (hstr : self.mStringTable ≠ 0)
    (hbuckets : ∀ i, i < self.mHashTable.mNumBucket →
      ∃ head, bucketAt self mem i = some head ∧ ChainEnds self mem head)
    (hdisj : ∀ i i' head head' j, i < self.mHashTable.mNumBucket →
      i' < self.mHashTable.mNumBucket → bucketAt self mem i = some head →
      bucketAt self mem i' = some head' → OnChain self mem head j →
      OnChain self mem head' j → i = i')
    (hS : ∀ j, j ∈ S ↔ Reachable self mem j)
    (hnamed : ∀ j, j ∈ S → ∃ nm, NamedAt self mem j nm) :
    ∃ fuel idxs names, dump self mem fuel = .ret names ∧
      List.Forall₂ (NamedAt self mem) idxs names ∧ idxs.Nodup ∧ (∀ j, j ∈ idxs ↔ j ∈ S) ∧
      names.length = S.card := by
  obtain ⟨F, idxs, names, hrun, hrel, hnodup, hmem⟩ :=
    dumpBuckets_exact self mem hstr hbuckets hdisj (fun j hj => hnamed j ((hS j).2 hj))
      self.mHashTable.mNumBucket 0 (by omega)
  have hiff : ∀ j, j ∈ idxs ↔ j ∈ S := by
    intro j
    rw [hmem j, hS j]
    constructor
    · rintro ⟨i', head, -, h2, hb, hon⟩
      exact ⟨i', head, by omega, hb, hon⟩
    · rintro ⟨i', head, h2, hb, hon⟩
      exact ⟨i', head, Nat.zero_le _, by omega, hb, hon⟩
  refine ⟨F, idxs, names, ?_, hrel, hnodup, hiff, ?_⟩
  · rw [dump, if_neg hsym, if_neg hstr]
    exact hrun F (le_refl _)
  · have hfin : idxs.toFinset = S := by
      ext j
      rw [List.mem_toFinset, hiff j]
    rw [← hrel.length_eq, ← hfin, List.toFinset_card_of_nodup hnodup]

theorem wideInfo_buckets (i : Nat) (hi : i < wideInfo.mHashTable.mNumBucket) :
    ∃ head, bucketAt wideInfo wideMem i = some head ∧ ChainEnds wideInfo wideMem head := by
  have hi' : i < 2 := hi
  interval_cases i
  · exact ⟨3, by decide, 2, by decide⟩
  · exact ⟨4, by decide, 1, by decide⟩

theorem wideInfo_disjoint (i i' head head' j : Nat) (hi : i < wideInfo.mHashTable.mNumBucket)
    (hi' : i' < wideInfo.mHashTable.mNumBucket) (hb : bucketAt wideInfo wideMem i = some head)
    (hb' : bucketAt wideInfo wideMem i' = some head') (hon : OnChain wideInfo wideMem head j)
    (hon' : OnChain wideInfo wideMem head' j) : i = i' := by
  rcases wideInfo_bucket i head hi hb with ⟨rfl, rfl⟩ | ⟨rfl, rfl⟩ <;>
    rcases wideInfo_bucket i' head' hi' hb' with ⟨rfl, rfl⟩ | ⟨rfl, rfl⟩
  · rfl
  · have h1 := wideInfo_chain0 j hon
    have h2 := wideInfo_chain1 j hon'
    omega
  · have h1 := wideInfo_chain1 j hon
    have h2 := wideInfo_chain0 j hon'
    omega
  · rfl

theorem wideInfo_reachable (j : Nat) :
    j ∈ ({2, 3, 4} : Finset Nat) ↔ Reachable wideInfo wideMem j := by
  constructor
  · intro hj
    simp only [Finset.mem_insert, Finset.mem_singleton] at hj
    rcases hj with rfl | rfl | rfl
    · exact ⟨0, 3, by decide, by decide, by decide, 1, by decide⟩
    · exact ⟨0, 3, by decide, by decide, by decide, 0, by decide⟩
    · exact ⟨1, 4, by decide, by decide, by decide, 0, by decide⟩
  · rintro ⟨i, head, hi, hb, hon⟩
    simp only [Finset.mem_insert, Finset.mem_singleton]
    rcases wideInfo_bucket i head hi hb with ⟨rfl, rfl⟩ | ⟨rfl, rfl⟩
    · rcases wideInfo_chain0 j hon with rfl | rfl
      · exact Or.inr (Or.inl rfl)
      · exact Or.inl rfl
    · exact Or.inr (Or.inr (wideInfo_chain1 j hon))

theorem wideInfo_all_named (j : Nat) (hj : j ∈ ({2, 3, 4} : Finset Nat)) :
    ∃ nm, NamedAt wideInfo wideMem j nm := by
  simp only [Finset.mem_insert, Finset.mem_singleton] at hj
  rcases hj with rfl | rfl | rfl
  · exact ⟨[100], 3, by decide, by decide, by decide⟩
  · exact ⟨[98], 1, by decide, by decide, by decide⟩
  · exact ⟨[97], 5, by decide, by decide, by decide⟩

/-- Witness of C7: the table with two buckets reaches exactly the symbol indices 2, 3 and 4
(two on the chain of bucket 0, one on the chain of bucket 1); the enumeration returns three
names. -/
theorem dump_yields_each_once_witness :
    ∃ fuel idxs names, dump wideInfo wideMem fuel = .ret names ∧
      List.Forall₂ (NamedAt wideInfo wideMem) idxs names ∧ idxs.Nodup ∧
      (∀ j, j ∈ idxs ↔ j ∈ ({2, 3, 4} : Finset Nat)) ∧
      names.length = ({2, 3, 4} : Finset Nat).card :=
  dump_yields_each_once wideInfo wideMem {2, 3, 4} (by decide) (by decide) wideInfo_buckets
    wideInfo_disjoint wideInfo_reachable wideInfo_all_named

/-! ### Bounds on the hash -/

/-- C14: `elfHash` of the empty name is 0, both for a buffer whose first byte is the
terminator and for the empty buffer. -/
theorem elfHash_empty (rest : List Byte) : elfHash (0 :: rest) = 0 ∧ elfHash [] = 0 :=
  ⟨rfl, rfl⟩

/-- One iteration of the loop of `elfHash` leaves the four most significant bits zero, from
every 32-bit value `h1` of `(h << 4) + *sym_name`. -/
theorem elfHash_step_lt (h1 : Nat) (hlt : h1 < 2 ^ 32) :
    (if h1 &&& 0xf0000000 ≠ 0 then h1 ^^^ ((h1 &&& 0xf0000000) >>> 24) else h1) &&&
      not32 (h1 &&& 0xf0000000) < 2 ^ 28 := by
  apply Nat.lt_pow_two_of_testBit
  intro i hi
  have hg : h1 &&& 0xf0000000 < 2 ^ 32 := lt_of_le_of_lt Nat.and_le_left hlt
  have hshift : ((h1 &&& 0xf0000000) >>> 24).testBit i = false := by
    rw [Nat.testBit_shiftRight]
    exact Nat.testBit_lt_two_pow
      (lt_of_lt_of_le hg (Nat.pow_le_pow_right (by norm_num) (by omega)))
  have hh2 : (if h1 &&& 0xf0000000 ≠ 0 then h1 ^^^ ((h1 &&& 0xf0000000) >>> 24)
      else h1).testBit i = h1.testBit i := by
    split
    · rw [Nat.testBit_xor, hshift, Bool.xor_false]
    · rfl
  rw [Nat.testBit_and, hh2]
  by_cases h32 : i < 32
  · have hmask : (0xf0000000 : Nat).testBit i = true := by
      interval_cases i <;> decide
    have hones : (0xffffffff : Nat).testBit i = true := by
      interval_cases i <;> decide
    unfold not32
    rw [Nat.testBit_xor, Nat.testBit_and, hmask, hones]
    cases h1.testBit i <;> rfl
  · have : h1.testBit i = false :=
      Nat.testBit_lt_two_pow (lt_of_lt_of_le hlt (Nat.pow_le_pow_right (by norm_num) (by omega)))
    rw [this, Bool.false_and]

theorem elfHashLoop_lt : ∀ (bytes : List Byte) (h : Nat), h < 2 ^ 28 →
    elfHashLoop bytes h < 2 ^ 28 := by
  intro bytes
  induction bytes with
  | nil => intro h hh; exact hh
  | cons b rest ih =>
    intro h hh
    by_cases hb : b.val = 0
    · simp only [elfHashLoop, hb, if_true]; exact hh
    · simp only [elfHashLoop, hb, if_false]
      exact ih _ (elfHash_step_lt _ (Nat.mod_lt _ (by norm_num)))

/-- C20: for every byte sequence the value of `elfHash` is strictly below `2^28`, its four
most significant bits are zero; and so is the value of `h` after the first `n` loop
iterations, which is the hash of the first `n` bytes. -/
theorem elfHash_lt (bytes : List Byte) (n : Nat) :
    elfHash bytes < 2 ^ 28 ∧ elfHash (bytes.take n) < 2 ^ 28 :=
  ⟨elfHashLoop_lt bytes 0 (by norm_num), elfHashLoop_lt (bytes.take n) 0 (by norm_num)⟩

/-! ### `parse`: the name, the terminator, ignored tags -/

/-- C12: for every module descriptor (with a terminated dynamic-entry array whose hash-table
entries are readable) `parse` returns an index whose display name, the value of `name()`, is
the load name unchanged when the load name is a non-empty string and is the literal
`"<no_name>"` when the load name is the empty string. -/
theorem parse_name (mem : Memory) (self : DynamicSymbolInfo) (lm : LinkMap)
    (pre rest : List Dyn) (nul : Dyn)
    (hld : lm.l_ld = pre ++ nul :: rest) (hnul : nul.d_tag = DT_NULL)
    (hpre : ∀ d ∈ pre, d.d_tag ≠ DT_NULL)
    (hread : ∀ d ∈ pre, d.d_tag = DT_HASH → decodeHash mem d.d_un ≠ .fault) :
    ∃ d, parse mem self lm = .ret d ∧
      (cstr lm.l_name ≠ [] → name d = cstr lm.l_name) ∧
      (cstr lm.l_name = [] → name d = noName) := by
  obtain ⟨s1, e1, -, -, -, -, -, a6⟩ := parseLoop_append mem (nul :: rest) pre
    { self with mLinkMapName := if cstr lm.l_name ≠ [] then cstr lm.l_name else noName }
    hpre hread
  have e2 : parseLoop mem (nul :: rest) s1 = .ret s1 := by rw [parseLoop, if_pos hnul]
  refine ⟨s1, by rw [parse, hld, e1, e2], ?_, ?_⟩
  · intro h
    rw [name, a6]
    exact if_pos h
  · intro h
    rw [name, a6]
    exact if_neg (not_not.2 h)

/-- Witness of C12: the hand-built section has an empty load name, and the parsed name is
`"<no_name>"`. -/
theorem parse_name_witness :
    ∃ d, parse tableMem .zero tableLm = .ret d ∧ name d = noName := by
  obtain ⟨d, h, -, h2⟩ := parse_name tableMem .zero tableLm
    [⟨DT_HASH, 4096⟩, ⟨DT_SYMTAB, 4116⟩, ⟨DT_SYMENT, 24⟩, ⟨DT_STRTAB, 4164⟩, ⟨DT_STRSZ, 18⟩]
    [] ⟨DT_NULL, 0⟩ rfl rfl (by decide) (by decide)
  exact ⟨d, h, h2 rfl⟩

/-- One step of the loop of `parse` on two arrays with the same first entry whose tails have
the same outcome. -/
theorem parseLoop_cons_congr (mem : Memory) (e : Dyn) (l l' : List Dyn)
    (h : ∀ s, parseLoop mem l s = parseLoop mem l' s) (s : DynamicSymbolInfo) :
    parseLoop mem (e :: l) s = parseLoop mem (e :: l') s := by
  rw [parseLoop, parseLoop]
  simp only [h]

theorem parseLoop_terminator (mem : Memory) (rest rest' : List Dyn) (nul nul' : Dyn)
    (hnul : nul.d_tag = DT_NULL) (hnul' : nul'.d_tag = DT_NULL) :
    ∀ (pre : List Dyn) (s : DynamicSymbolInfo),
      parseLoop mem (pre ++ nul :: rest) s = parseLoop mem (pre ++ nul' :: rest') s := by
  intro pre
  induction pre with
  | nil => intro s; simp [parseLoop, hnul, hnul']
  | cons e pre ih =>
    intro s
    exact parseLoop_cons_congr mem e _ _ ih s

/-- C17: `parse` consumes the entries up to the first terminator only.  Two descriptors with
the same load name whose dynamic-entry arrays agree on the entries `pre` before a terminator
have the same outcome of `parse`, whatever follows the terminator. -/
theorem parse_stops_at_terminator (mem : Memory) (self : DynamicSymbolInfo) (lm lm' : LinkMap)
    (pre rest rest' : List Dyn) (nul nul' : Dyn)
    (hname : lm'.l_name = lm.l_name)
    (hld : lm.l_ld = pre ++ nul :: rest) (hld' : lm'.l_ld = pre ++ nul' :: rest')
    (hnul : nul.d_tag = DT_NULL) (hnul' : nul'.d_tag = DT_NULL) :
    parse mem self lm = parse mem self lm' := by
  rw [parse, parse, hld, hld', hname]
  exact parseLoop_terminator mem rest rest' nul nul' hnul hnul' pre _

/-- Witness of C17: `repeatedLm`, which has an entry after its terminator, parses to the same
index as the array cut after the terminator. -/
theorem parse_stops_at_terminator_witness :
    parse tableMem .zero repeatedLm = parse tableMem .zero
      { l_name := [],
        l_ld := [⟨DT_SYMTAB, 8⟩, ⟨DT_SYMENT, 16⟩, ⟨DT_HASH, 4096⟩, ⟨DT_SYMTAB, 4116⟩, ⟨21, 7⟩,
          ⟨DT_SYMENT, 24⟩, ⟨DT_STRTAB, 4164⟩, ⟨DT_STRSZ, 18⟩, ⟨DT_NULL, 0⟩] } :=
  parse_stops_at_terminator tableMem .zero repeatedLm _
    [⟨DT_SYMTAB, 8⟩, ⟨DT_SYMENT, 16⟩, ⟨DT_HASH, 4096⟩, ⟨DT_SYMTAB, 4116⟩, ⟨21, 7⟩,
      ⟨DT_SYMENT, 24⟩, ⟨DT_STRTAB, 4164⟩, ⟨DT_STRSZ, 18⟩]
    [⟨DT_SYMTAB, 99⟩] [] ⟨DT_NULL, 0⟩ ⟨DT_NULL, 0⟩ rfl rfl rfl rfl rfl

/-- An ignored entry leaves the object under construction as it is. -/
theorem parseLoop_ignored (mem : Memory) (e : Dyn) (l : List Dyn) (s : DynamicSymbolInfo)
    (he : isIgnored e = true) : parseLoop mem (e :: l) s = parseLoop mem l s := by
  simp only [isIgnored, Bool.and_eq_true, decide_eq_true_eq] at he
  obtain ⟨⟨⟨⟨⟨h0, h1⟩, h2⟩, h3⟩, h4⟩, h5⟩ := he
  rw [parseLoop, if_neg h0, if_neg h1, if_neg h2, if_neg h3, if_neg h4, if_neg h5]

theorem parseLoop_filter (mem : Memory) :
    ∀ (l : List Dyn) (s : DynamicSymbolInfo),
      parseLoop mem (l.filter fun d => !isIgnored d) s = parseLoop mem l s := by
  intro l
  induction l with
  | nil => intro s; rfl
  | cons e l ih =>
    intro s
    by_cases he : isIgnored e = true
    · rw [List.filter_cons_of_neg (by simp [he]), parseLoop_ignored mem e l s he]
      exact ih s
    · rw [List.filter_cons_of_pos (by simp [he])]
      exact parseLoop_cons_congr mem e _ _ ih s

/-- C18: entries whose tag is none of the five consumed tags and not the terminator leave
the object under construction unchanged (`parseLoop_ignored`): removing all such entries from
the dynamic-entry array yields the same outcome of `parse`, hence the same parsed index. -/
theorem parse_ignores_other_tags (mem : Memory) (self : DynamicSymbolInfo) (lm : LinkMap) :
    parse mem self { lm with l_ld := lm.l_ld.filter fun d => !isIgnored d } =
      parse mem self lm := by
  rw [parse, parse]
  exact parseLoop_filter mem lm.l_ld _

/-! ### Records with an out-of-bound name offset -/

theorem Outcome.bind_ret_nil_append {α : Type} (o : Outcome (List α)) :
    (o.bind fun rows => .ret ([] ++ rows)) = o := by
  cases o <;> rfl

/-- C11: a symbol record whose name offset is greater than or equal to the string-table size
prints nothing in `dump` and matches no name in `hasSymbol`, and it does not stop the walk:
both chain walks go on with the next chain entry, exactly as if they had started there. -/
theorem out_of_bound_record_skipped (self : DynamicSymbolInfo) (mem : Memory)
    (j off next : Nat) (hj : j ≠ STN_UNDEF)
    (hoff : stNameAt self mem j = some off) (hge : self.mStringTableSize ≤ off)
    (hc : chainAt self mem j = some next) :
    symbolRow self mem j = .ret [] ∧
    (∀ symbol_name, symbolMatches self mem symbol_name j = .ret false) ∧
    (∀ fuel, dumpChain self mem (fuel + 1) j = dumpChain self mem fuel next) ∧
    (∀ symbol_name fuel, hasSymbolLoop self mem symbol_name (fuel + 1) j =
      hasSymbolLoop self mem symbol_name fuel next) := by
  have hlt : ¬ off < self.mStringTableSize := by omega
  have hrow : symbolRow self mem j = .ret [] := by simp [symbolRow, hoff, hlt]
  have hmatch : ∀ symbol_name, symbolMatches self mem symbol_name j = .ret false := by
    intro symbol_name; simp [symbolMatches, hoff, hlt]
  refine ⟨hrow, hmatch, ?_, ?_⟩
  · intro fuel
    rw [dumpChain, if_neg hj, hrow, hc]
    simp only [Outcome.bind_ret, Outcome.ofRead_some]
    exact Outcome.bind_ret_nil_append _
  · intro symbol_name fuel
    rw [hasSymbolLoop, if_neg hj, hmatch, hc]
    simp

/-- Witness of C11: in `skipMem` record 3 has the name offset 9 with a string table of size
7, and record 2 follows it on the chain; the walks from 3 go on from 2, so that `"b"`, the
name of record 2, is still printed and found. -/
theorem out_of_bound_record_skipped_witness :
    (dumpChain wideInfo skipMem 3 3 = dumpChain wideInfo skipMem 2 2 ∧
      dumpChain wideInfo skipMem 2 2 = .ret [[98]]) ∧
    (hasSymbolLoop wideInfo skipMem [98] 2 3 = hasSymbolLoop wideInfo skipMem [98] 1 2 ∧
      hasSymbolLoop wideInfo skipMem [98] 1 2 = .ret true) := by
  obtain ⟨-, -, h3, h4⟩ := out_of_bound_record_skipped wideInfo skipMem 3 9 2 (by decide)
    (by decide) (by decide) (by decide)
  exact ⟨⟨h3 2, by decide⟩, ⟨h4 [98] 1, by decide⟩⟩

/-! ### Termination of `hasSymbol` and the order of its comparisons -/

/-- Entries that do not match cost one iteration each: after `m` links past entries that all
compare unequal, the walk is at the `m`-th cursor with `m` iterations spent. -/
theorem hasSymbolLoop_skip (self : DynamicSymbolInfo) (mem : Memory) (name : List Byte) :
    ∀ m head j, cursorAfter self mem m head = some j →
      (∀ i ji, i < m → cursorAfter self mem i head = some ji →
        symbolMatches self mem name ji = .ret false) →
      ∀ fuel, hasSymbolLoop self mem name (fuel + m) head = hasSymbolLoop self mem name fuel j := by
  intro m
  induction m with
  | zero =>
    intro head j hm _ fuel
    simp only [cursorAfter, Option.some.injEq] at hm
    rw [hm]; rfl
  | succ m ih =>
    intro head j hm hno fuel
    by_cases h0 : head = STN_UNDEF
    · simp [cursorAfter, h0] at hm
    · cases hc : chainAt self mem head with
      | none => simp [cursorAfter, h0, hc] at hm
      | some next =>
        rw [cursorAfter_succ self mem m head next h0 hc] at hm
        have hhead := hno 0 head (by omega) rfl
        have e : fuel + (m + 1) = (fuel + m) + 1 := by omega
        rw [e, hasSymbolLoop, if_neg h0, hhead, hc]
        simp only [Outcome.bind_ret, Outcome.ofRead_some, Bool.false_eq_true, if_false]
        refine ih next j hm (fun i ji hi hci => ?_) fuel
        exact hno (i + 1) ji (by omega)
          (by rw [cursorAfter_succ self mem i head next h0 hc]; exact hci)

/-- A chain that ends after `k` links is walked by `hasSymbol` within `k + 1` iterations. -/
theorem hasSymbolLoop_ends (self : DynamicSymbolInfo) (mem : Memory) (name : List Byte) :
    ∀ k head, cursorAfter self mem k head = some STN_UNDEF →
      hasSymbolLoop self mem name (k + 1) head ≠ .timeout := by
  intro k
  induction k with
  | zero =>
    intro head h
    simp only [cursorAfter, Option.some.injEq] at h
    simp [hasSymbolLoop, h]
  | succ k ih =>
    intro head h
    by_cases h0 : head = STN_UNDEF
    · simp [hasSymbolLoop, h0]
    · cases hc : chainAt self mem head with
      | none => simp [cursorAfter, h0, hc] at h
      | some next =>
        rw [cursorAfter_succ self mem k head next h0 hc] at h
        have hn := ih next h
        rw [hasSymbolLoop, if_neg h0, hc]
        rcases symbolMatches_cases self mem name head with hm | hm | hm
        · rw [hm]; simp
        · rw [hm]; simpa using hn
        · rw [hm]; simp

/-- C15: for an index with `numBuckets > 0` (tables present) and a name whose chain, from
`head = bucket[elfHash(name) mod numBuckets]`, reaches `0` after `K` links, `hasSymbol`
terminates within `K + 1` iterations.  It examines the chain entries in chain order: when the
first `m` entries all compare unequal, `m` iterations are not enough, and iteration `m + 1`
returns true if the `m`-th cursor is an entry that matches (the first match), and false if the
`m`-th cursor is `0` (all entries were examined, none matched). -/
theorem hasSymbol_terminates_in_order (self : DynamicSymbolInfo) (mem : Memory)
    (symbol_name : List Byte) (K head : Nat)
    (hnb : 0 < self.mHashTable.mNumBucket)
    (hsym : self.mSymbolTable ≠ 0) (hstr : self.mStringTable ≠ 0)
    (hb : bucketAt self mem (elfHash symbol_name % self.mHashTable.mNumBucket) = some head)
    (hK : cursorAfter self mem K head = some STN_UNDEF) :
    hasSymbol self mem symbol_name (K + 1) ≠ .timeout ∧
    ∀ m j, cursorAfter self mem m head = some j →
      (∀ i ji, i < m → cursorAfter self mem i head = some ji →
        symbolMatches self mem symbol_name ji = .ret false) →
      hasSymbol self mem symbol_name m = .timeout ∧
      (j ≠ STN_UNDEF → symbolMatches self mem symbol_name j = .ret true →
        hasSymbol self mem symbol_name (m + 1) = .ret true) ∧
      (j = STN_UNDEF → hasSymbol self mem symbol_name (m + 1) = .ret false) := by
  have hnb' : self.mHashTable.mNumBucket ≠ 0 := by omega
  have hunf : ∀ fuel, hasSymbol self mem symbol_name fuel =
      hasSymbolLoop self mem symbol_name fuel head := by
    intro fuel; simp [hasSymbol, hsym, hstr, hnb', hb]
  refine ⟨by rw [hunf]; exact hasSymbolLoop_ends self mem symbol_name K head hK, ?_⟩
  intro m j hm hno
  have hskip := hasSymbolLoop_skip self mem symbol_name m head j hm hno
  refine ⟨?_, ?_, ?_⟩
  · rw [hunf]
    have := hskip 0
    rw [Nat.zero_add] at this
    rw [this]; rfl
  · intro hj hmatch
    rw [hunf, Nat.add_comm m 1, hskip 1]
    simp [hasSymbolLoop, hj, hmatch]
  · intro hj
    rw [hunf, Nat.add_comm m 1, hskip 1]
    simp [hasSymbolLoop, hj]

/-- Witness of C15: in the table with two buckets the chain of `"d"` is `3 → 2 → 0`; entry 3
compares unequal and entry 2 matches, so one iteration is not enough and the second returns
true. -/
theorem hasSymbol_terminates_in_order_witness :
    hasSymbol wideInfo wideMem [100] 3 ≠ .timeout ∧
    hasSymbol wideInfo wideMem [100] 1 = .timeout ∧
    hasSymbol wideInfo wideMem [100] 2 = .ret true := by
  obtain ⟨h1, h2⟩ := hasSymbol_terminates_in_order wideInfo wideMem [100] 2 3 (by decide)
    (by decide) (by decide) (by decide) (by decide)
  obtain ⟨h3, h4, -⟩ := h2 1 2 (by decide) (by
    intro i ji hi hci
    have hi0 : i = 0 := by omega
    subst hi0
    cases hci
    decide)
  exact ⟨h1, h3, h4 (by decide) (by decide)⟩

/-! ### Names lie inside the string table -/

/-- The string read from a byte run ends at the first NUL of the run: it is followed by a NUL
and is no longer than the position of any NUL. -/
theorem cstrFrom_first_nul :
    ∀ (l s : List Byte), cstrFrom l = some s →
      (l[s.length]?).map (fun b => b.val) = some 0 ∧
      ∀ i, (l[i]?).map (fun b => b.val) = some 0 → s.length ≤ i := by
  intro l
  induction l with
  | nil => intro s h; simp [cstrFrom] at h
  | cons b rest ih =>
    intro s h
    by_cases hb : b.val = 0
    · simp only [cstrFrom, hb, if_true, Option.some.injEq] at h
      subst h
      exact ⟨by simp [hb], fun i _ => Nat.zero_le _⟩
    · simp only [cstrFrom, hb, if_false, Option.map_eq_some'] at h
      obtain ⟨t, ht, rfl⟩ := h
      obtain ⟨h1, h2⟩ := ih t ht
      refine ⟨by simpa using h1, ?_⟩
      intro i hi
      cases i with
      | zero => simp [hb] at hi
      | succ i =>
        simp only [List.getElem?_cons_succ] at hi
        have := h2 i hi
        simp only [List.length_cons]
        omega

/-- A C string read at `a`, with a NUL mapped at `t ≥ a`: the string ends, with its own NUL,
at or before `t`. -/
theorem loadCStr_bound (mem : Memory) (a t : Nat) (s : List Byte) (hat : a ≤ t)
    (hs : mem.loadCStr a = some s) (ht : mem.load8 t = some 0) :
    a + s.length ≤ t ∧ mem.load8 (a + s.length) = some 0 := by
  unfold Memory.loadCStr at hs
  by_cases hbase : a < mem.base
  · simp [hbase] at hs
  · simp only [hbase, if_false] at hs
    obtain ⟨h1, h2⟩ := cstrFrom_first_nul _ s hs
    have htb : ¬ t < mem.base := by omega
    simp only [Memory.load8, htb, if_false] at ht
    have hidx : t - mem.base = (a - mem.base) + (t - a) := by omega
    have hle : s.length ≤ t - a := by
      apply h2
      rw [List.getElem?_drop, ← hidx]
      exact ht
    refine ⟨by omega, ?_⟩
    have hab : ¬ a + s.length < mem.base := by omega
    simp only [Memory.load8, hab, if_false]
    rw [List.getElem?_drop] at h1
    have hidx2 : a + s.length - mem.base = (a - mem.base) + s.length := by omega
    rw [hidx2]
    exact h1

/-- C19: for an index whose string table has size `n > 0` and whose byte at offset `n - 1` is
NUL, every name that the body of the chain loops reads for a record (the string that
`hasSymbol` compares and `dump` prints) lies wholly inside the string table: it starts at an
offset below `n` and its terminating NUL is at an offset below `n`.  So do all names that
`dump` yields and every name for which `hasSymbol` returns true. -/
theorem names_inside_string_table (self : DynamicSymbolInfo) (mem : Memory)
    (hn : 0 < self.mStringTableSize)
    (hnul : mem.load8 (self.mStringTable + self.mStringTableSize - 1) = some 0) :
    (∀ j nm, NamedAt self mem j nm →
      ∃ off, stNameAt self mem j = some off ∧ off < self.mStringTableSize ∧
        off + nm.length < self.mStringTableSize ∧
        mem.load8 (self.mStringTable + off + nm.length) = some 0) ∧
    (∀ fuel names nm, dump self mem fuel = .ret names → nm ∈ names →
      ∃ j off, stNameAt self mem j = some off ∧ off + nm.length < self.mStringTableSize) ∧
    (∀ fuel symbol_name, hasSymbol self mem symbol_name fuel = .ret true →
      ∃ j off, stNameAt self mem j = some off ∧
        off + (cstr symbol_name).length < self.mStringTableSize) := by
  have hrec : ∀ j nm, NamedAt self mem j nm →
      ∃ off, stNameAt self mem j = some off ∧ off < self.mStringTableSize ∧
        off + nm.length < self.mStringTableSize ∧
        mem.load8 (self.mStringTable + off + nm.length) = some 0 := by
    rintro j nm ⟨off, hoff, hlt, hs⟩
    obtain ⟨h1, h2⟩ := loadCStr_bound mem (self.mStringTable + off)
      (self.mStringTable + self.mStringTableSize - 1) nm (by omega) hs hnul
    exact ⟨off, hoff, hlt, by omega, h2⟩
  refine ⟨hrec, ?_, ?_⟩
  · intro fuel names nm hd hmem
    obtain ⟨-, -, hb⟩ := dump_ret self mem fuel names hd
    obtain ⟨i, head, rows, -, -, -, hch, hrow⟩ := dumpBuckets_mem self mem fuel nm _ 0 names hb hmem
    obtain ⟨⟨j, -, hnamed⟩, -⟩ := dumpChain_mem self mem nm fuel head rows hch hrow
    obtain ⟨off, h1, -, h3, -⟩ := hrec j nm hnamed
    exact ⟨j, off, h1, h3⟩
  · intro fuel symbol_name h
    obtain ⟨-, hstr, -, head, -, hloop⟩ := hasSymbol_ret_true self mem symbol_name fuel h
    obtain ⟨j, -, hnamed⟩ := hasSymbolLoop_true_onChain self mem symbol_name hstr fuel head hloop
    obtain ⟨off, h1, -, h3, -⟩ := hrec j (cstr symbol_name) hnamed
    exact ⟨j, off, h1, h3⟩

/-- Witness of C19: the string table of the hand-built table has size 18 and ends with a
NUL; the name `"target"` of record 1 starts at offset 11 and ends before offset 18. -/
theorem names_inside_string_table_witness :
    (0 < tableInfo.mStringTableSize ∧
      tableMem.load8 (tableInfo.mStringTable + tableInfo.mStringTableSize - 1) = some 0) ∧
    ∃ off, stNameAt tableInfo tableMem 1 = some off ∧ off < tableInfo.mStringTableSize ∧
      off + nameTarget.length < tableInfo.mStringTableSize ∧
      tableMem.load8 (tableInfo.mStringTable + off + nameTarget.length) = some 0 :=
  ⟨by decide,
    (names_inside_string_table tableInfo tableMem (by decide) (by decide)).1 1 nameTarget
      ⟨11, by decide, by decide, by decide⟩⟩

/-! ### The address of a symbol record -/

/-- C16 (the code at the failing input): the record that `hasSymbol` and `dump` read for a
cursor lies at `symbolAddr`, whose offset from the symbol-table base is the product reduced
modulo `2^32`.  For the parsed stride 24 and the cursor `0x10000000` the offset is
`2147483648`, not the exact product `6442450944`. -/
theorem symbol_offset_wraps :
    (∀ (self : DynamicSymbolInfo) (mem : Memory) (idx : Nat),
      stNameAt self mem idx = mem.load32 (symbolAddr self idx)) ∧
    tableInfo.mSymbolTableEntrySize = 24 ∧
    symbolAddr tableInfo 0x10000000 = tableInfo.mSymbolTable + 2147483648 ∧
    0x10000000 * 24 = 6442450944 := by
  exact ⟨fun _ _ _ => rfl, by decide, by decide, by decide⟩

/-! ### The module chain in `main` -/

/-- The loop of `parse` returns or faults; it contains no assertion that can fail and needs
no budget. -/
theorem parseLoop_cases (mem : Memory) :
    ∀ (l : List Dyn) (s : DynamicSymbolInfo),
      (∃ d, parseLoop mem l s = .ret d) ∨ parseLoop mem l s = .fault := by
  intro l
  induction l with
  | nil => intro s; exact Or.inr rfl
  | cons e l ih =>
    intro s
    by_cases he : e.d_tag = DT_NULL
    · exact Or.inl ⟨s, by rw [parseLoop, if_pos he]⟩
    · by_cases hh : e.d_tag = DT_HASH
      · rcases decodeHash_cases mem e.d_un with ⟨t, ht⟩ | hf
        · obtain ⟨s', e1, -⟩ := parseLoop_cons mem e l s he (fun _ => by rw [ht]; simp)
          rw [e1]; exact ih s'
        · exact Or.inr (by rw [parseLoop, if_neg he, if_pos hh, hf]; rfl)
      · obtain ⟨s', e1, -⟩ := parseLoop_cons mem e l s he (fun h => absurd h hh)
        rw [e1]; exact ih s'

theorem parse_cases (mem : Memory) (self : DynamicSymbolInfo) (lm : LinkMap) :
    (∃ d, parse mem self lm = .ret d) ∨ parse mem self lm = .fault :=
  parseLoop_cases mem lm.l_ld _

/-- The first loop of `main` appends to `dyn_sym_infos`, in chain order, the parsed index of
every module that is not the vdso. -/
theorem mainLoop_spec (mem : Memory) :
    ∀ (chain : List LinkMap) (infos : List DynamicSymbolInfo),
      (∀ lm ∈ chain, isVdso lm = false → parse mem .zero lm ≠ .fault) →
      ∃ ds, mainLoop mem chain infos = .ret (infos ++ ds) ∧
        List.Forall₂ (fun lm d => parse mem .zero lm = .ret d)
          (chain.filter fun lm => !isVdso lm) ds := by
  intro chain
  induction chain with
  | nil => intro infos _; exact ⟨[], by simp [mainLoop], List.Forall₂.nil⟩
  | cons lm rest ih =>
    intro infos hparse
    have hrest : ∀ x ∈ rest, isVdso x = false → parse mem .zero x ≠ .fault :=
      fun x hx => hparse x (List.mem_cons_of_mem _ hx)
    by_cases hv : isVdso lm = true
    · obtain ⟨ds, h1, h2⟩ := ih infos hrest
      refine ⟨ds, by rw [mainLoop, if_pos hv]; exact h1, ?_⟩
      rw [List.filter_cons_of_neg (by simp [hv])]
      exact h2
    · have hv' : isVdso lm = false := by simpa using hv
      rcases parse_cases mem .zero lm with ⟨d, hd⟩ | hf
      · obtain ⟨ds, h1, h2⟩ := ih (infos ++ [d]) hrest
        refine ⟨d :: ds, ?_, ?_⟩
        · rw [mainLoop, if_neg hv, hd]
          simp only [Outcome.bind_ret]
          rw [h1, List.append_assoc]
          rfl
        · rw [List.filter_cons_of_pos (by simp [hv'])]
          exact List.Forall₂.cons hd h2
      · exact absurd hf (hparse lm (List.mem_cons_self _ _) hv')

/-- C13: for every module chain with a head (and modules that `parse` can read), the modules
handed to `parse` by `main` are the descriptors of the chain, in chain order, with exactly
those removed whose name contains the vdso marker: `dyn_sym_infos` holds their parsed
indices in that order.  In particular a chain of length `K` without such a module yields
exactly `K` parsed modules, and a chain of length 1 without such a module yields exactly
one. -/
theorem main_parses_chain_without_vdso (mem : Memory) (chain : List LinkMap)
    (hne : chain ≠ [])
    (hparse : ∀ lm ∈ chain, isVdso lm = false → parse mem .zero lm ≠ .fault) :
    ∃ ds, mainParse mem chain = .ret ds ∧
      List.Forall₂ (fun lm d => parse mem .zero lm = .ret d)
        (chain.filter fun lm => !isVdso lm) ds ∧
      ((∀ lm ∈ chain, isVdso lm = false) → ds.length = chain.length) ∧
      (∀ lm, chain = [lm] → isVdso lm = false → ds.length = 1) := by
  obtain ⟨ds, h1, h2⟩ := mainLoop_spec mem chain [] hparse
  have hall : (∀ lm ∈ chain, isVdso lm = false) → ds.length = chain.length := by
    intro hno
    have hf : (chain.filter fun lm => !isVdso lm) = chain := by
      apply List.filter_eq_self.2
      intro lm hlm
      simp [hno lm hlm]
    rw [← h2.length_eq, hf]
  refine ⟨ds, ?_, h2, hall, ?_⟩
  · cases chain with
    | nil => exact absurd rfl hne
    | cons lm rest => simpa [mainParse] using h1
  · intro lm hc hv
    rw [hall (by intro x hx; rw [hc] at hx; simp at hx; rw [hx]; exact hv), hc]
    rfl

theorem tableChain_parses (lm : LinkMap) (hlm : lm ∈ [tableLm, vdsoLm, noHashLm])
    (hv : isVdso lm = false) : parse tableMem .zero lm ≠ .fault := by
  simp only [List.mem_cons, List.mem_singleton, List.not_mem_nil, or_false] at hlm
  rcases hlm with rfl | rfl | rfl
  · decide
  · exact absurd hv (by decide)
  · decide

/-- Witness of C13: a chain of three modules whose second is `"linux-vdso.so.1"`; the first
and the third are parsed, in this order. -/
theorem main_parses_chain_without_vdso_witness :
    mainParse tableMem [tableLm, vdsoLm, noHashLm] = .ret [tableInfo, noHashInfo] ∧
    ∃ ds, mainParse tableMem [tableLm, vdsoLm, noHashLm] = .ret ds ∧
      List.Forall₂ (fun lm d => parse tableMem .zero lm = .ret d)
        ([tableLm, vdsoLm, noHashLm].filter fun lm => !isVdso lm) ds :=
  ⟨by decide,
    (main_parses_chain_without_vdso tableMem [tableLm, vdsoLm, noHashLm] (by simp)
      tableChain_parses).imp fun _ h => ⟨h.1, h.2.1⟩⟩

end DlExplore
